import Mathlib

/-!
# A verification development for `Hashmap.h`

`HashMap<KeyType, ValueType, Hash>` is a separate-chaining hash table: a vector of
buckets (`data_`), the element counter `size_`, the bucket counter `batches_` and
the hash functor `hash_`.

## Embedding

* `std::vector` is a `List`; `data_[i]` is `bucket data i` (the empty bucket outside
  the array, where the source is undefined; the theorems establish the bounds).
* `KeyType`'s `operator==` is Lean equality (`DecidableEq K`), the functor `hash_`
  is a function `K → Nat`.
* `size_t` values are natural numbers.  `++size_` and `batches_ * 2` are not
  wrapped: a table stores `batches_` buckets and `size_` entries in memory, which
  keeps both far below `2 ^ 63`.  `--size_` is wrapped at zero (`SIZE_MAX`).
* An iterator is its pair `(index_, position_)`; the pointer `data_` of an iterator
  is the bucket array of the table the iterator was taken from, which every
  function on iterators receives as an argument.
* Member functions that assign to members return the new table (and the returned
  value, if any); `find`, `begin`, `end`, `at` have no assignment in their bodies
  and return their value only.
-/

set_option autoImplicit false
set_option linter.unusedSectionVars false

/-- The four data members of `HashMap`, in declaration order. -/
structure HashMap (K V : Type) where
  data_ : List (List (K × V))
  size_ : Nat
  batches_ : Nat
  hash_ : K → Nat

namespace HashMap

/-- The members `index_` and `position_` of `iterator` / `const_iterator`. -/
structure iterator where
  index_ : Nat
  position_ : Nat
deriving DecidableEq

/-- What `at` can end with besides a value: the `std::out_of_range` it throws, or
the dereference of a handle that addresses no entry (undefined in the source). -/
inductive Exception where
  | out_of_range
  | invalid_handle
deriving DecidableEq

variable {K V : Type}

/-- The constant `MIN_SIZE_TO_HALVE`. -/
def MIN_SIZE_TO_HALVE : Nat := 5

/-- The largest `size_t`, the value of `--size_` at zero. -/
def SIZE_MAX : Nat := 2 ^ 64 - 1

/-- The bucket `data[index]`. -/
def bucket (data : List (List (K × V))) (index : Nat) : List (K × V) :=
  data.getD index []

/-- The statement `data[index].push_back(item)` (also `emplace_back(key, value)`). -/
def push_back (data : List (List (K × V))) (index : Nat) (item : K × V) :
    List (List (K × V)) :=
  data.set index (bucket data index ++ [item])

/-- The constructor `HashMap(Hash hash)`: no entries, one empty bucket. -/
def empty (hash : K → Nat) : HashMap K V :=
  { data_ := List.replicate 1 [], size_ := 0, batches_ := 1, hash_ := hash }

/-- The accessor `size()`. -/
def size (t : HashMap K V) : Nat := t.size_

/-- The private `getHash(key, batches)`; the default argument `0` selects `batches_`. -/
def getHash (t : HashMap K V) (key : K) (batches : Nat) : Nat :=
  let batches := if batches = 0 then t.batches_ else batches
  t.hash_ key % batches

/-- The handle `end()`. -/
def end_ (t : HashMap K V) : iterator := ⟨t.batches_, 0⟩

/-- The `for` loop of `begin()`, at bucket `i` with `remaining = batches_ - i`
iterations left. -/
def beginFrom (t : HashMap K V) : Nat → Nat → iterator
  | 0, _ => end_ t
  | remaining + 1, i =>
    if (bucket t.data_ i).isEmpty then beginFrom t remaining (i + 1) else ⟨i, 0⟩

/-- The handle `begin()`. -/
def begin (t : HashMap K V) : iterator := beginFrom t t.batches_ 0

/-- The `while` loop of `operator++`, at `index` with
`remaining = data.size() - index` buckets left. -/
def skipEmpty (data : List (List (K × V))) : Nat → Nat → Nat
  | 0, index => index
  | remaining + 1, index =>
    if (bucket data index).length = 0 then skipEmpty data remaining (index + 1) else index

/-- The prefix `operator++` of an iterator into `data`. -/
def next (data : List (List (K × V))) (it : iterator) : iterator :=
  let position := it.position_ + 1
  if position = (bucket data it.index_).length then
    let index := it.index_ + 1
    ⟨skipEmpty data (data.length - index) index, 0⟩
  else
    ⟨it.index_, position⟩

/-- The `operator*` of an iterator into `data`; `none` where the handle addresses
no entry. -/
def deref (data : List (List (K × V))) (it : iterator) : Option (K × V) :=
  (bucket data it.index_)[it.position_]?

section
variable [DecidableEq K]

/-- The scanning loop of `find` and `erase`: the first position of `batch` whose
key equals `key`. -/
def findPosition (key : K) : List (K × V) → Option Nat
  | [] => none
  | item :: rest =>
    if item.1 = key then some 0 else (findPosition key rest).map (· + 1)

/-- The member `find(key)`. -/
def find (t : HashMap K V) (key : K) : iterator :=
  let hash := getHash t key 0
  let batch := bucket t.data_ hash
  match findPosition key batch with
  | some position => ⟨hash, position⟩
  | none => end_ t

/-- The private `rehash(new_batches)`. -/
def rehash (t : HashMap K V) (new_batches : Nat) : HashMap K V :=
  let new_data : List (List (K × V)) := List.replicate new_batches []
  let new_data := t.data_.foldl
    (fun nd batch => batch.foldl
      (fun nd item => push_back nd (getHash t item.1 new_batches) (item.1, item.2)) nd)
    new_data
  { t with batches_ := new_batches, data_ := new_data }

/-- The private `double_batches_if_needed()`. -/
def double_batches_if_needed (t : HashMap K V) : HashMap K V :=
  if t.batches_ < t.size_ then rehash t (t.batches_ * 2) else t

/-- The private `halve_batches_if_needed()`. -/
def halve_batches_if_needed (t : HashMap K V) : HashMap K V :=
  if t.batches_ > MIN_SIZE_TO_HALVE ∧ t.batches_ > 2 * t.size_ then
    rehash t (t.batches_ / 2)
  else t

/-- The member `insert(item)`: the new table and the returned handle. -/
def insert (t : HashMap K V) (item : K × V) : HashMap K V × iterator :=
  let key := item.1
  let found_element := find t key
  if found_element = end_ t then
    let t1 := double_batches_if_needed t
    let hash := getHash t1 key 0
    let t2 := { t1 with size_ := t1.size_ + 1 }
    let t3 := { t2 with data_ := push_back t2.data_ hash item }
    (t3, ⟨hash, (bucket t3.data_ hash).length - 1⟩)
  else
    (t, found_element)

/-- The member `erase(key)`. -/
def erase (t : HashMap K V) (key : K) : HashMap K V :=
  let t1 := halve_batches_if_needed t
  let hash := getHash t1 key 0
  let batch := bucket t1.data_ hash
  match findPosition key batch with
  | some found_position =>
    let new_data := batch.eraseIdx found_position
    { t1 with
      data_ := t1.data_.set hash new_data
      size_ := if t1.size_ = 0 then SIZE_MAX else t1.size_ - 1 }
  | none => t1

/-- The member `operator[]`: the new table and the value the returned reference
reads (`none` where the handle of `insert` addresses no entry). -/
def index [Inhabited V] (t : HashMap K V) (key : K) : HashMap K V × Option V :=
  let r := insert t (key, default)
  (r.1, (deref r.1.data_ r.2).map (·.2))

/-- The member `at(key)`. -/
def at_ (t : HashMap K V) (key : K) : Except Exception V :=
  let result := find t key
  if result = end_ t then
    .error .out_of_range
  else
    match deref t.data_ result with
    | some item => .ok item.2
    | none => .error .invalid_handle

/-- The member `clear()`. -/
def clear (t : HashMap K V) : HashMap K V :=
  { t with data_ := List.replicate 1 [], size_ := 0, batches_ := 1 }

/-- The traversal `for (it = begin; it != end(); ++it)` over `t`, yielding the
dereferenced entries; `none` when `fuel` advances do not reach `end()` or a handle
on the way addresses no entry. -/
def collect (t : HashMap K V) : Nat → iterator → Option (List (K × V))
  | 0, it => if it = end_ t then some [] else none
  | fuel + 1, it =>
    if it = end_ t then some []
    else
      match deref t.data_ it with
      | none => none
      | some item => (collect t fuel (next t.data_ it)).map (item :: ·)

/-- The range `[t.begin(), t.end())` as a sequence of entries. -/
def items (t : HashMap K V) : Option (List (K × V)) :=
  collect t t.data_.flatten.length (begin t)

/-- The range constructor `HashMap(begin, end, hash)` on the sequence of entries
the iterator range yields; also the constructors from a vector and from an
initializer list. -/
def ofRange (range : List (K × V)) (hash : K → Nat) : HashMap K V :=
  range.foldl (fun t item => (insert t item).1) (empty hash)

/-- The copy constructor `HashMap(const HashMap &other)`. -/
def copy (other : HashMap K V) : Option (HashMap K V) :=
  (items other).map fun range => ofRange range other.hash_

/-- The copy assignment `operator=(other)`. -/
def assign (t other : HashMap K V) : Option (HashMap K V) :=
  let t1 := { t with size_ := other.size_, hash_ := other.hash_, batches_ := other.batches_ }
  (items other).map fun range =>
    let new_data := range.foldl
      (fun nd item => push_back nd (getHash t1 item.1 0) (item.1, item.2))
      (List.replicate t1.batches_ [])
    { t1 with data_ := new_data }

/-- The tables a program can build: the empty table of any hash function, and
what `insert`, `erase`, `operator[]`, `clear` and copy assignment make of them. -/
inductive Reachable [Inhabited V] : HashMap K V → Prop
  | empty (hash : K → Nat) : Reachable (empty hash)
  | insert (t : HashMap K V) (item : K × V) : Reachable t → Reachable (insert t item).1
  | erase (t : HashMap K V) (key : K) : Reachable t → Reachable (erase t key)
  | index (t : HashMap K V) (key : K) : Reachable t → Reachable (index t key).1
  | clear (t : HashMap K V) : Reachable t → Reachable (clear t)
  | assign (t other c : HashMap K V) : Reachable t → Reachable other →
      assign t other = some c → Reachable c

/-! ## The stored entries and the table invariant -/

/-- Some bucket of `t` holds the entry `(k, v)`. -/
def stored (t : HashMap K V) (k : K) (v : V) : Prop :=
  ∃ batch ∈ t.data_, (k, v) ∈ batch

/-- Some bucket of `t` holds an entry with key `k`. -/
def holds (t : HashMap K V) (k : K) : Prop :=
  ∃ batch ∈ t.data_, ∃ item ∈ batch, item.1 = k

/-- The table invariant: the bucket array has `batches_ ≥ 1` buckets, every entry
lies in the bucket of its hash, `size_` counts the entries, and no key occurs
twice. -/
structure Inv (t : HashMap K V) : Prop where
  length_eq : t.data_.length = t.batches_
  pos : 0 < t.batches_
  placed : ∀ i item, item ∈ bucket t.data_ i → t.hash_ item.1 % t.batches_ = i
  count : t.size_ = t.data_.flatten.length
  nodup : (t.data_.flatten.map Prod.fst).Nodup

/-- The table `insert` builds from `t1` (the table after the growth check) for a new
entry: `++size_` and `data_[hash].push_back(item)`. -/
def appended (t1 : HashMap K V) (item : K × V) : HashMap K V :=
  { t1 with
    size_ := t1.size_ + 1
    data_ := push_back t1.data_ (t1.hash_ item.1 % t1.batches_) item }

/-- The table `erase` builds from `t1` (the table after the shrink check) when the
scan found the key at `found_position`: the bucket without that position, `--size_`. -/
def removed (t1 : HashMap K V) (key : K) (found_position : Nat) : HashMap K V :=
  { t1 with
    data_ := t1.data_.set (t1.hash_ key % t1.batches_)
      ((bucket t1.data_ (t1.hash_ key % t1.batches_)).eraseIdx found_position)
    size_ := if t1.size_ = 0 then SIZE_MAX else t1.size_ - 1 }

/-- The number of entries in the buckets before the one a handle addresses, plus its
position: the place of the handle in the traversal. -/
def rank (data : List (List (K × V))) (it : iterator) : Nat :=
  (data.take it.index_).flatten.length + it.position_

/-- A handle that addresses an entry of `data`, or is `(data.size(), 0)`. -/
def proper (data : List (List (K × V))) (it : iterator) : Prop :=
  it.index_ ≤ data.length ∧
  (it.index_ < data.length → it.position_ < (bucket data it.index_).length) ∧
  (it.index_ = data.length → it.position_ = 0)

instance (t : HashMap K V) (k : K) : Decidable (holds t k) := by
  unfold holds; infer_instance

instance [DecidableEq V] (t : HashMap K V) (k : K) (v : V) : Decidable (stored t k v) := by
  unfold stored; infer_instance

/-- The counters `(batches_, size_)` of a table. -/
def counters (t : HashMap K V) : Nat × Nat := (t.batches_, t.size_)

/-- The counters after `insert` of a new key: `double_batches_if_needed` on the
counters before the insert, then `++size_`. -/
def growStep (c : Nat × Nat) : Nat × Nat :=
  (if c.1 < c.2 then c.1 * 2 else c.1, c.2 + 1)

/-- The counters after `erase` of a stored key: `halve_batches_if_needed` on the
counters before the removal, then `--size_`. -/
def shrinkStep (c : Nat × Nat) : Nat × Nat :=
  (if c.1 > MIN_SIZE_TO_HALVE ∧ c.1 > 2 * c.2 then c.1 / 2 else c.1, c.2 - 1)

/-- The load bound: at most one entry more than buckets, and the number of buckets
is a power of two. -/
def Load (t : HashMap K V) : Prop :=
  t.size_ ≤ t.batches_ + 1 ∧ ∃ e, t.batches_ = 2 ^ e

/-- A table of three entries in eight buckets: the keys 0 to 5 inserted under the
identity hash, then the keys 0, 1, 2 erased. -/
def sparse : HashMap Nat Nat :=
  [0, 1, 2].foldl erase
    (ofRange [(0, 0), (1, 1), (2, 2), (3, 3), (4, 4), (5, 5)] fun k => k)

/-- The two-step description of `erase(key)` in the specification: the shrink check on
the counters before any removal (rehash to `batches_ / 2` when `batches_ > 5` and
`batches_ > 2 * size_`), then in bucket `hash(key) % batches_` of the resulting table
the first entry with that key, if any, is removed and `size_` decremented; the other
entries of the bucket keep their order and the other buckets are not touched. -/
def erase_two_step (t : HashMap K V) (key : K) : HashMap K V :=
  let t1 := if 5 < t.batches_ ∧ 2 * t.size_ < t.batches_ then rehash t (t.batches_ / 2) else t
  let h := t1.hash_ key % t1.batches_
  if ∃ item ∈ bucket t1.data_ h, item.1 = key then
    { t1 with
      data_ := t1.data_.set h ((bucket t1.data_ h).eraseP fun item => item.1 = key)
      size_ := t1.size_ - 1 }
  else
    t1

/-- The table of the shrink scenario: the keys 0 to 19 inserted into the empty table
under the identity hash. -/
def twenty : HashMap Nat Nat :=
  ofRange ((List.range 20).map fun i => (i, i)) fun k => k

/-- A table of three entries under the identity hash, built by three `insert`s. -/
def sample : HashMap Nat Nat :=
  (insert (insert (insert (empty fun k => k) (1, 10)).1 (2, 20)).1 (3, 30)).1

end

/-! ## Buckets -/

theorem bucket_eq_getElem (data : List (List (K × V))) (i : Nat) (h : i < data.length) :
    bucket data i = data[i] := by
  simp [bucket, List.getD_eq_getElem?_getD, List.getElem?_eq_getElem h]

theorem bucket_of_le (data : List (List (K × V))) (i : Nat) (h : data.length ≤ i) :
    bucket data i = [] := by
  simp [bucket, List.getD_eq_getElem?_getD, List.getElem?_eq_none h]

theorem bucket_mem (data : List (List (K × V))) (i : Nat) (h : i < data.length) :
    bucket data i ∈ data := by
  rw [bucket_eq_getElem data i h]; exact List.getElem_mem h

theorem mem_iff_bucket (data : List (List (K × V))) (batch : List (K × V)) :
    batch ∈ data ↔ ∃ i, i < data.length ∧ bucket data i = batch := by
  constructor
  · intro h
    obtain ⟨i, hi, rfl⟩ := List.mem_iff_getElem.mp h
    exact ⟨i, hi, bucket_eq_getElem data i hi⟩
  · rintro ⟨i, hi, rfl⟩
    exact bucket_mem data i hi

theorem mem_flatten_iff_bucket (data : List (List (K × V))) (item : K × V) :
    item ∈ data.flatten ↔ ∃ i, item ∈ bucket data i := by
  rw [List.mem_flatten]
  constructor
  · rintro ⟨batch, hb, hm⟩
    obtain ⟨i, _, rfl⟩ := (mem_iff_bucket data batch).mp hb
    exact ⟨i, hm⟩
  · rintro ⟨i, hm⟩
    by_cases hi : i < data.length
    · exact ⟨_, bucket_mem data i hi, hm⟩
    · rw [bucket_of_le data i (Nat.le_of_not_lt hi)] at hm
      cases hm

theorem flatten_split (data : List (List (K × V))) (i : Nat) (h : i < data.length) :
    data.flatten = (data.take i).flatten ++ (bucket data i ++ (data.drop (i + 1)).flatten) := by
  conv_lhs => rw [← List.take_append_drop i data, List.drop_eq_getElem_cons h]
  rw [List.flatten_append, List.flatten_cons, bucket_eq_getElem data i h]

theorem flatten_set (data : List (List (K × V))) (i : Nat) (batch : List (K × V))
    (h : i < data.length) :
    (data.set i batch).flatten
      = (data.take i).flatten ++ (batch ++ (data.drop (i + 1)).flatten) := by
  rw [List.set_eq_take_append_cons_drop, if_pos h, List.flatten_append, List.flatten_cons]

theorem bucket_set_self (data : List (List (K × V))) (i : Nat) (batch : List (K × V))
    (h : i < data.length) : bucket (data.set i batch) i = batch := by
  simp [bucket, List.getD_eq_getElem?_getD, List.getElem?_set, h]

theorem bucket_set_ne (data : List (List (K × V))) (i j : Nat) (batch : List (K × V))
    (h : j ≠ i) : bucket (data.set i batch) j = bucket data j := by
  simp [bucket, List.getD_eq_getElem?_getD, List.getElem?_set, Ne.symm h]

theorem length_push_back (data : List (List (K × V))) (i : Nat) (item : K × V) :
    (push_back data i item).length = data.length := by
  simp [push_back]

theorem bucket_push_back_self (data : List (List (K × V))) (i : Nat) (item : K × V)
    (h : i < data.length) : bucket (push_back data i item) i = bucket data i ++ [item] :=
  bucket_set_self data i _ h

theorem bucket_push_back_ne (data : List (List (K × V))) (i j : Nat) (item : K × V)
    (h : j ≠ i) : bucket (push_back data i item) j = bucket data j :=
  bucket_set_ne data i j _ h

theorem flatten_push_back_perm (data : List (List (K × V))) (i : Nat) (item : K × V)
    (h : i < data.length) : (push_back data i item).flatten.Perm (data.flatten ++ [item]) := by
  rw [push_back, flatten_set data i _ h, flatten_split data i h]
  simp only [List.append_assoc]
  refine List.Perm.append_left _ (List.Perm.append_left _ ?_)
  exact List.perm_append_comm

section Proofs
variable [DecidableEq K]

/-! ## The scanning loop and `find` -/

theorem findPosition_eq_none_iff (key : K) (batch : List (K × V)) :
    findPosition key batch = none ↔ ∀ item ∈ batch, item.1 ≠ key := by
  induction batch with
  | nil => simp [findPosition]
  | cons a rest ih =>
    by_cases h : a.1 = key
    · simp [findPosition, h]
    · simp [findPosition, h, ih]

theorem findPosition_eq_some (key : K) (batch : List (K × V)) (p : Nat)
    (h : findPosition key batch = some p) :
    ∃ item, batch[p]? = some item ∧ item.1 = key := by
  induction batch generalizing p with
  | nil => simp [findPosition] at h
  | cons a rest ih =>
    by_cases ha : a.1 = key
    · simp [findPosition, ha] at h
      subst h
      exact ⟨a, by simp, ha⟩
    · simp [findPosition, ha] at h
      obtain ⟨q, hq, rfl⟩ := h
      obtain ⟨item, h1, h2⟩ := ih q hq
      exact ⟨item, by simpa using h1, h2⟩

theorem findPosition_isSome_iff (key : K) (batch : List (K × V)) :
    (∃ p, findPosition key batch = some p) ↔ ∃ item ∈ batch, item.1 = key := by
  have h := findPosition_eq_none_iff key batch
  cases hf : findPosition key batch with
  | none =>
    rw [hf] at h
    have h1 := h.mp rfl
    constructor
    · rintro ⟨p, hp⟩; cases hp
    · rintro ⟨item, hi, hk⟩; exact absurd hk (h1 item hi)
  | some p =>
    rw [hf] at h
    constructor
    · intro _
      by_contra hc
      push_neg at hc
      have := h.mpr hc
      cases this
    · intro _; exact ⟨p, rfl⟩

theorem getHash_zero (t : HashMap K V) (key : K) :
    getHash t key 0 = t.hash_ key % t.batches_ := by
  simp [getHash]

theorem getHash_pos (t : HashMap K V) (key : K) (n : Nat) (h : 0 < n) :
    getHash t key n = t.hash_ key % n := by
  simp [getHash, Nat.pos_iff_ne_zero.mp h]

theorem find_of_some (t : HashMap K V) (key : K) (p : Nat)
    (h : findPosition key (bucket t.data_ (t.hash_ key % t.batches_)) = some p) :
    find t key = ⟨t.hash_ key % t.batches_, p⟩ := by
  simp [find, getHash_zero, h]

theorem find_of_none (t : HashMap K V) (key : K)
    (h : findPosition key (bucket t.data_ (t.hash_ key % t.batches_)) = none) :
    find t key = end_ t := by
  simp [find, getHash_zero, h]

theorem find_eq_end_iff (t : HashMap K V) (key : K) (hpos : 0 < t.batches_) :
    find t key = end_ t
      ↔ findPosition key (bucket t.data_ (t.hash_ key % t.batches_)) = none := by
  constructor
  · intro h
    cases hf : findPosition key (bucket t.data_ (t.hash_ key % t.batches_)) with
    | none => rfl
    | some p =>
      rw [find_of_some t key p hf, end_] at h
      have h1 : t.hash_ key % t.batches_ = t.batches_ := congrArg iterator.index_ h
      have h2 := Nat.mod_lt (t.hash_ key) hpos
      omega
  · exact find_of_none t key

theorem holds_iff_bucket (t : HashMap K V) (key : K) (hinv : Inv t) :
    holds t key ↔ ∃ item ∈ bucket t.data_ (t.hash_ key % t.batches_), item.1 = key := by
  constructor
  · rintro ⟨batch, hb, item, hi, rfl⟩
    obtain ⟨i, _, rfl⟩ := (mem_iff_bucket t.data_ batch).mp hb
    rw [hinv.placed i item hi]
    exact ⟨item, hi, rfl⟩
  · rintro ⟨item, hi, hk⟩
    have hlt : t.hash_ key % t.batches_ < t.data_.length := by
      rw [hinv.length_eq]; exact Nat.mod_lt _ hinv.pos
    exact ⟨_, bucket_mem t.data_ _ hlt, item, hi, hk⟩

theorem find_ne_end_iff_holds (t : HashMap K V) (key : K) (hinv : Inv t) :
    find t key ≠ end_ t ↔ holds t key := by
  rw [holds_iff_bucket t key hinv, ← findPosition_isSome_iff, Ne, find_eq_end_iff t key hinv.pos]
  cases findPosition key (bucket t.data_ (t.hash_ key % t.batches_)) <;> simp

theorem stored_iff_mem_flatten (t : HashMap K V) (k : K) (v : V) :
    stored t k v ↔ (k, v) ∈ t.data_.flatten := by
  simp [stored, List.mem_flatten]

theorem holds_iff_stored (t : HashMap K V) (k : K) : holds t k ↔ ∃ v, stored t k v := by
  constructor
  · rintro ⟨batch, hb, ⟨k1, v⟩, hi, rfl⟩
    exact ⟨v, batch, hb, hi⟩
  · rintro ⟨v, batch, hb, hi⟩
    exact ⟨batch, hb, (k, v), hi, rfl⟩

theorem holds_iff_mem_keys (t : HashMap K V) (k : K) :
    holds t k ↔ k ∈ t.data_.flatten.map Prod.fst := by
  rw [holds_iff_stored]
  simp only [stored_iff_mem_flatten, List.mem_map, Prod.exists, exists_and_right, exists_eq_right]

/-- Under the invariant a key has at most one stored value. -/
theorem stored_unique (t : HashMap K V) (k : K) (v w : V) (hinv : Inv t)
    (hv : stored t k v) (hw : stored t k w) : v = w := by
  rw [stored_iff_mem_flatten] at hv hw
  have := List.inj_on_of_nodup_map hinv.nodup hv hw rfl
  exact (Prod.mk.inj this).2

/-! ## Distributing entries over a bucket array: `rehash` -/

theorem foldl_push_back_length (g : K → Nat) (range : List (K × V))
    (nd : List (List (K × V))) :
    (range.foldl (fun nd item => push_back nd (g item.1) (item.1, item.2)) nd).length
      = nd.length := by
  induction range generalizing nd with
  | nil => rfl
  | cons a rest ih => rw [List.foldl_cons, ih, length_push_back]

theorem foldl_push_back_bucket (g : K → Nat) (range : List (K × V))
    (nd : List (List (K × V))) (hg : ∀ k, g k < nd.length) (i : Nat) :
    bucket (range.foldl (fun nd item => push_back nd (g item.1) (item.1, item.2)) nd) i
      = bucket nd i ++ range.filter (fun item => g item.1 = i) := by
  induction range generalizing nd with
  | nil => simp
  | cons a rest ih =>
    rw [List.foldl_cons, ih _ (by intro k; rw [length_push_back]; exact hg k)]
    by_cases h : g a.1 = i
    · subst h
      rw [bucket_push_back_self nd _ _ (hg a.1)]
      simp
    · rw [bucket_push_back_ne nd _ _ _ (Ne.symm h)]
      simp [h]

theorem foldl_push_back_perm (g : K → Nat) (range : List (K × V))
    (nd : List (List (K × V))) (hg : ∀ k, g k < nd.length) :
    (range.foldl (fun nd item => push_back nd (g item.1) (item.1, item.2)) nd).flatten.Perm
      (nd.flatten ++ range) := by
  induction range generalizing nd with
  | nil => simp
  | cons a rest ih =>
    rw [List.foldl_cons]
    refine (ih _ (by intro k; rw [length_push_back]; exact hg k)).trans ?_
    have h := flatten_push_back_perm nd (g a.1) (a.1, a.2) (hg a.1)
    refine (List.Perm.append_right rest h).trans ?_
    simp

theorem flatten_replicate_nil (n : Nat) :
    (List.replicate n ([] : List (K × V))).flatten = [] := by
  induction n with
  | zero => rfl
  | succ n ih => simp [List.replicate_succ, ih]

theorem bucket_replicate_nil (n i : Nat) :
    bucket (List.replicate n ([] : List (K × V))) i = [] := by
  simp only [bucket, List.getD_eq_getElem?_getD, List.getElem?_replicate]
  split <;> rfl

theorem rehash_data (t : HashMap K V) (n : Nat) :
    (rehash t n).data_ = t.data_.flatten.foldl
      (fun nd item => push_back nd (getHash t item.1 n) (item.1, item.2))
      (List.replicate n []) := by
  simp only [rehash, List.foldl_flatten]

theorem rehash_batches (t : HashMap K V) (n : Nat) : (rehash t n).batches_ = n := rfl

theorem rehash_size (t : HashMap K V) (n : Nat) : (rehash t n).size_ = t.size_ := rfl

theorem rehash_hash (t : HashMap K V) (n : Nat) : (rehash t n).hash_ = t.hash_ := rfl

theorem rehash_length (t : HashMap K V) (n : Nat) : (rehash t n).data_.length = n := by
  rw [rehash_data, foldl_push_back_length (fun k => getHash t k n), List.length_replicate]

theorem rehash_bucket (t : HashMap K V) (n : Nat) (hn : 0 < n) (i : Nat) :
    bucket (rehash t n).data_ i
      = t.data_.flatten.filter (fun item => t.hash_ item.1 % n = i) := by
  rw [rehash_data, foldl_push_back_bucket (fun k => getHash t k n), bucket_replicate_nil]
  · simp only [getHash_pos t _ n hn, List.nil_append]
  · intro k
    rw [List.length_replicate, getHash_pos t k n hn]
    exact Nat.mod_lt _ hn

theorem rehash_perm (t : HashMap K V) (n : Nat) (hn : 0 < n) :
    (rehash t n).data_.flatten.Perm t.data_.flatten := by
  rw [rehash_data]
  refine (foldl_push_back_perm (fun k => getHash t k n) _ _ ?_).trans ?_
  · intro k
    show getHash t k n < _
    rw [List.length_replicate, getHash_pos t k n hn]
    exact Nat.mod_lt _ hn
  · rw [flatten_replicate_nil, List.nil_append]

theorem rehash_placed (t : HashMap K V) (n : Nat) (hn : 0 < n) (i : Nat) (item : K × V)
    (h : item ∈ bucket (rehash t n).data_ i) : t.hash_ item.1 % n = i := by
  rw [rehash_bucket t n hn, List.mem_filter] at h
  simpa using h.2

theorem rehash_inv (t : HashMap K V) (n : Nat) (hn : 0 < n) (hinv : Inv t) :
    Inv (rehash t n) where
  length_eq := rehash_length t n
  pos := hn
  placed := rehash_placed t n hn
  count := by rw [rehash_size, hinv.count]; exact (rehash_perm t n hn).length_eq.symm
  nodup := ((rehash_perm t n hn).map Prod.fst).nodup_iff.mpr hinv.nodup

theorem rehash_stored (t : HashMap K V) (n : Nat) (hn : 0 < n) (k : K) (v : V) :
    stored (rehash t n) k v ↔ stored t k v := by
  rw [stored_iff_mem_flatten, stored_iff_mem_flatten]
  exact (rehash_perm t n hn).mem_iff

/-! ## `insert` -/

theorem double_batches_inv (t : HashMap K V) (hinv : Inv t) :
    Inv (double_batches_if_needed t) := by
  unfold double_batches_if_needed
  split
  · exact rehash_inv t _ (Nat.mul_pos hinv.pos (by decide)) hinv
  · exact hinv

theorem double_batches_perm (t : HashMap K V) (hpos : 0 < t.batches_) :
    (double_batches_if_needed t).data_.flatten.Perm t.data_.flatten := by
  unfold double_batches_if_needed
  split
  · exact rehash_perm t _ (Nat.mul_pos hpos (by decide))
  · exact List.Perm.refl _

theorem double_batches_hash (t : HashMap K V) :
    (double_batches_if_needed t).hash_ = t.hash_ := by
  unfold double_batches_if_needed
  split <;> rfl

theorem double_batches_size (t : HashMap K V) :
    (double_batches_if_needed t).size_ = t.size_ := by
  unfold double_batches_if_needed
  split <;> rfl

theorem double_batches_length (t : HashMap K V) (hlen : t.data_.length = t.batches_) :
    (double_batches_if_needed t).data_.length = (double_batches_if_needed t).batches_ := by
  unfold double_batches_if_needed
  split
  · exact rehash_length t _
  · exact hlen

theorem double_batches_pos (t : HashMap K V) (hpos : 0 < t.batches_) :
    0 < (double_batches_if_needed t).batches_ := by
  unfold double_batches_if_needed
  split
  · exact Nat.mul_pos hpos (by decide)
  · exact hpos

theorem insert_of_find_eq_end (t : HashMap K V) (item : K × V)
    (h : find t item.1 = end_ t) :
    insert t item =
      (appended (double_batches_if_needed t) item,
        ⟨(double_batches_if_needed t).hash_ item.1 % (double_batches_if_needed t).batches_,
          (bucket (appended (double_batches_if_needed t) item).data_
            ((double_batches_if_needed t).hash_ item.1
              % (double_batches_if_needed t).batches_)).length - 1⟩) := by
  simp [insert, h, appended, getHash_zero]

theorem insert_of_find_ne_end (t : HashMap K V) (item : K × V)
    (h : find t item.1 ≠ end_ t) : insert t item = (t, find t item.1) := by
  simp [insert, h]

theorem appended_perm (t1 : HashMap K V) (item : K × V)
    (hlen : t1.data_.length = t1.batches_) (hpos : 0 < t1.batches_) :
    (appended t1 item).data_.flatten.Perm (t1.data_.flatten ++ [item]) :=
  flatten_push_back_perm t1.data_ _ item (by rw [hlen]; exact Nat.mod_lt _ hpos)

theorem appended_inv (t1 : HashMap K V) (item : K × V) (hinv : Inv t1)
    (hk : ¬ holds t1 item.1) : Inv (appended t1 item) where
  length_eq := by
    show (push_back _ _ _).length = t1.batches_
    rw [length_push_back, hinv.length_eq]
  pos := hinv.pos
  placed := by
    intro i it hi
    have hlt : t1.hash_ item.1 % t1.batches_ < t1.data_.length := by
      rw [hinv.length_eq]; exact Nat.mod_lt _ hinv.pos
    change it ∈ bucket (push_back t1.data_ (t1.hash_ item.1 % t1.batches_) item) i at hi
    show t1.hash_ it.1 % t1.batches_ = i
    by_cases h : i = t1.hash_ item.1 % t1.batches_
    · subst h
      rw [bucket_push_back_self _ _ _ hlt, List.mem_append, List.mem_singleton] at hi
      rcases hi with hi | rfl
      · exact hinv.placed _ it hi
      · rfl
    · rw [bucket_push_back_ne _ _ _ _ h] at hi
      exact hinv.placed i it hi
  count := by
    show t1.size_ + 1 = _
    rw [(appended_perm t1 item hinv.length_eq hinv.pos).length_eq, hinv.count]
    simp
  nodup := by
    have hp := (appended_perm t1 item hinv.length_eq hinv.pos).map Prod.fst
    rw [hp.nodup_iff, List.map_append, List.map_singleton]
    rw [holds_iff_mem_keys] at hk
    refine List.Nodup.append hinv.nodup (List.nodup_singleton _) ?_
    intro a ha hb
    rw [List.mem_singleton] at hb
    exact hk (hb ▸ ha)

theorem insert_inv (t : HashMap K V) (item : K × V) (hinv : Inv t) :
    Inv (insert t item).1 := by
  by_cases h : find t item.1 = end_ t
  · rw [insert_of_find_eq_end t item h]
    refine appended_inv _ item (double_batches_inv t hinv) ?_
    have hno : ¬ holds t item.1 := fun hh => (find_ne_end_iff_holds t _ hinv).mpr hh h
    rw [holds_iff_mem_keys] at hno ⊢
    rwa [((double_batches_perm t hinv.pos).map Prod.fst).mem_iff]
  · rw [insert_of_find_ne_end t item h]
    exact hinv

theorem insert_hash (t : HashMap K V) (item : K × V) : (insert t item).1.hash_ = t.hash_ := by
  by_cases h : find t item.1 = end_ t
  · rw [insert_of_find_eq_end t item h]
    exact double_batches_hash t
  · rw [insert_of_find_ne_end t item h]

/-- The entries after `insert`, up to order: the old ones, and the new entry when its
key was absent. -/
theorem insert_perm (t : HashMap K V) (item : K × V) (hinv : Inv t) :
    (holds t item.1 → (insert t item).1 = t) ∧
    (¬ holds t item.1 →
      (insert t item).1.data_.flatten.Perm (t.data_.flatten ++ [item]) ∧
      (insert t item).1.size_ = t.size_ + 1) := by
  constructor
  · intro hh
    rw [insert_of_find_ne_end t item ((find_ne_end_iff_holds t _ hinv).mpr hh)]
  · intro hno
    have h : find t item.1 = end_ t := by
      by_contra hc
      exact hno ((find_ne_end_iff_holds t _ hinv).mp hc)
    rw [insert_of_find_eq_end t item h]
    have hd := double_batches_inv t hinv
    exact ⟨(appended_perm _ item hd.length_eq hd.pos).trans
      (List.Perm.append_right _ (double_batches_perm t hinv.pos)),
      by show (double_batches_if_needed t).size_ + 1 = _; rw [double_batches_size]⟩

theorem insert_stored (t : HashMap K V) (item : K × V) (hinv : Inv t) (k : K) (v : V) :
    stored (insert t item).1 k v ↔ stored t k v ∨ (¬ holds t item.1 ∧ (k, v) = item) := by
  by_cases hh : holds t item.1
  · rw [(insert_perm t item hinv).1 hh]
    simp [hh]
  · rw [stored_iff_mem_flatten, stored_iff_mem_flatten,
      ((insert_perm t item hinv).2 hh).1.mem_iff]
    simp [hh]

/-! ## `erase` -/

theorem halve_batches_perm (t : HashMap K V) :
    (halve_batches_if_needed t).data_.flatten.Perm t.data_.flatten := by
  unfold halve_batches_if_needed
  split
  · next h =>
    refine rehash_perm t _ ?_
    simp only [MIN_SIZE_TO_HALVE] at h
    omega
  · exact List.Perm.refl _

theorem halve_batches_inv (t : HashMap K V) (hinv : Inv t) :
    Inv (halve_batches_if_needed t) := by
  unfold halve_batches_if_needed
  split
  · next h =>
    refine rehash_inv t _ ?_ hinv
    simp only [MIN_SIZE_TO_HALVE] at h
    omega
  · exact hinv

theorem halve_batches_hash (t : HashMap K V) :
    (halve_batches_if_needed t).hash_ = t.hash_ := by
  unfold halve_batches_if_needed
  split <;> rfl

theorem halve_batches_size (t : HashMap K V) :
    (halve_batches_if_needed t).size_ = t.size_ := by
  unfold halve_batches_if_needed
  split <;> rfl

theorem perm_cons_eraseIdx {α : Type} (l : List α) (p : Nat) (a : α) (h : l[p]? = some a) :
    l.Perm (a :: l.eraseIdx p) := by
  induction l generalizing p with
  | nil => simp at h
  | cons x xs ih =>
    cases p with
    | zero =>
      simp at h
      subst h
      exact List.Perm.refl _
    | succ p =>
      simp only [List.getElem?_cons_succ] at h
      simp only [List.eraseIdx_cons_succ]
      exact ((ih p h).cons x).trans (List.Perm.swap a x _)

theorem erase_of_some (t : HashMap K V) (key : K) (p : Nat)
    (h : findPosition key (bucket (halve_batches_if_needed t).data_
      ((halve_batches_if_needed t).hash_ key % (halve_batches_if_needed t).batches_)) = some p) :
    erase t key = removed (halve_batches_if_needed t) key p := by
  simp [erase, getHash_zero, h, removed]

theorem erase_of_none (t : HashMap K V) (key : K)
    (h : findPosition key (bucket (halve_batches_if_needed t).data_
      ((halve_batches_if_needed t).hash_ key % (halve_batches_if_needed t).batches_)) = none) :
    erase t key = halve_batches_if_needed t := by
  simp [erase, getHash_zero, h]

theorem removed_perm (t1 : HashMap K V) (key : K) (p : Nat) (hlen : t1.data_.length = t1.batches_)
    (hpos : 0 < t1.batches_)
    (h : findPosition key (bucket t1.data_ (t1.hash_ key % t1.batches_)) = some p) :
    ∃ v, t1.data_.flatten.Perm ((key, v) :: (removed t1 key p).data_.flatten) := by
  obtain ⟨⟨k, v⟩, h1, h2⟩ := findPosition_eq_some key _ p h
  have hlt : t1.hash_ key % t1.batches_ < t1.data_.length := by
    rw [hlen]; exact Nat.mod_lt _ hpos
  simp only at h2
  subst h2
  refine ⟨v, ?_⟩
  show List.Perm _ (_ :: (List.set _ _ _).flatten)
  rw [flatten_set _ _ _ hlt]
  conv_lhs => rw [flatten_split t1.data_ _ hlt]
  refine (List.Perm.append_left _
    (List.Perm.append_right _ (perm_cons_eraseIdx _ p _ h1))).trans ?_
  simp only [List.cons_append]
  exact List.perm_middle

theorem removed_inv (t1 : HashMap K V) (key : K) (p : Nat) (hinv : Inv t1)
    (h : findPosition key (bucket t1.data_ (t1.hash_ key % t1.batches_)) = some p) :
    Inv (removed t1 key p) := by
  obtain ⟨v, hperm⟩ := removed_perm t1 key p hinv.length_eq hinv.pos h
  have hlt : t1.hash_ key % t1.batches_ < t1.data_.length := by
    rw [hinv.length_eq]; exact Nat.mod_lt _ hinv.pos
  refine ⟨?_, hinv.pos, ?_, ?_, ?_⟩
  · show (List.set _ _ _).length = t1.batches_
    rw [List.length_set, hinv.length_eq]
  · intro i it hi
    change it ∈ bucket (List.set _ _ _) i at hi
    show t1.hash_ it.1 % t1.batches_ = i
    by_cases hih : i = t1.hash_ key % t1.batches_
    · subst hih
      rw [bucket_set_self _ _ _ hlt] at hi
      exact hinv.placed _ it ((List.eraseIdx_sublist _ _).subset hi)
    · rw [bucket_set_ne _ _ _ _ hih] at hi
      exact hinv.placed i it hi
  · have hl := hperm.length_eq
    rw [← hinv.count, List.length_cons] at hl
    show (if t1.size_ = 0 then SIZE_MAX else t1.size_ - 1) = _
    rw [if_neg (by omega)]
    omega
  · have := (hperm.map Prod.fst).nodup_iff.mp hinv.nodup
    rw [List.map_cons] at this
    exact (List.nodup_cons.mp this).2

/-- The entries and the counter after `erase`, up to order. -/
theorem erase_spec (t : HashMap K V) (key : K) (hinv : Inv t) :
    Inv (erase t key) ∧ (erase t key).hash_ = t.hash_ ∧
    (¬ holds t key →
      (erase t key).data_.flatten.Perm t.data_.flatten ∧ (erase t key).size_ = t.size_) ∧
    (holds t key → ∃ v,
      t.data_.flatten.Perm ((key, v) :: (erase t key).data_.flatten) ∧
      (erase t key).size_ + 1 = t.size_) := by
  have h1 := halve_batches_inv t hinv
  have hp := halve_batches_perm t
  have hholds : holds (halve_batches_if_needed t) key ↔ holds t key := by
    rw [holds_iff_mem_keys, holds_iff_mem_keys]
    exact (hp.map Prod.fst).mem_iff
  cases hf : findPosition key (bucket (halve_batches_if_needed t).data_
      ((halve_batches_if_needed t).hash_ key % (halve_batches_if_needed t).batches_)) with
  | none =>
    rw [erase_of_none t key hf]
    have hno : ¬ holds t key := by
      rw [← hholds, ← find_ne_end_iff_holds _ _ h1, not_not]
      exact find_of_none _ _ hf
    exact ⟨h1, halve_batches_hash t, fun _ => ⟨hp, halve_batches_size t⟩,
      fun hh => absurd hh hno⟩
  | some p =>
    rw [erase_of_some t key p hf]
    have hyes : holds t key := by
      rw [← hholds, ← find_ne_end_iff_holds _ _ h1, Ne, find_eq_end_iff _ _ h1.pos, hf]
      simp
    obtain ⟨v, hperm⟩ := removed_perm _ key p h1.length_eq h1.pos hf
    have hri := removed_inv _ key p h1 hf
    refine ⟨hri, halve_batches_hash t, fun hno => absurd hyes hno, fun _ => ⟨v, hp.symm.trans hperm, ?_⟩⟩
    have hl := (hp.symm.trans hperm).length_eq
    rw [List.length_cons, ← hri.count, ← hinv.count] at hl
    exact hl.symm

theorem erase_inv (t : HashMap K V) (key : K) (hinv : Inv t) : Inv (erase t key) :=
  (erase_spec t key hinv).1

/-! ## Iteration: `begin`, `operator++`, `operator*` -/

theorem flatten_take_succ (data : List (List (K × V))) (i : Nat) :
    (data.take (i + 1)).flatten = (data.take i).flatten ++ bucket data i := by
  rw [List.take_succ, List.flatten_append]
  by_cases h : i < data.length
  · rw [bucket_eq_getElem data i h, List.getElem?_eq_getElem h]
    simp
  · rw [bucket_of_le data i (Nat.le_of_not_lt h), List.getElem?_eq_none (Nat.le_of_not_lt h)]
    simp

theorem skipEmpty_spec (data : List (List (K × V))) (remaining i : Nat)
    (h : i + remaining = data.length) :
    i ≤ skipEmpty data remaining i ∧ skipEmpty data remaining i ≤ data.length ∧
    (data.take (skipEmpty data remaining i)).flatten = (data.take i).flatten ∧
    (skipEmpty data remaining i < data.length →
      0 < (bucket data (skipEmpty data remaining i)).length) := by
  induction remaining generalizing i with
  | zero =>
    have e : skipEmpty data 0 i = i := rfl
    rw [e]
    exact ⟨Nat.le_refl _, by omega, rfl, fun hc => by omega⟩
  | succ remaining ih =>
    have e : skipEmpty data (remaining + 1) i
        = if (bucket data i).length = 0 then skipEmpty data remaining (i + 1) else i := rfl
    rw [e]
    by_cases hz : (bucket data i).length = 0
    · rw [if_pos hz]
      obtain ⟨h1, h2, h3, h4⟩ := ih (i + 1) (by omega)
      refine ⟨by omega, h2, ?_, h4⟩
      rw [h3, flatten_take_succ, List.length_eq_zero.mp hz, List.append_nil]
    · rw [if_neg hz]
      exact ⟨Nat.le_refl _, by omega, rfl, fun _ => Nat.pos_of_ne_zero hz⟩

theorem beginFrom_eq (t : HashMap K V) (remaining i : Nat) (h : i + remaining = t.batches_) :
    beginFrom t remaining i = ⟨skipEmpty t.data_ remaining i, 0⟩ := by
  induction remaining generalizing i with
  | zero =>
    simp only [beginFrom, skipEmpty, end_]
    rw [← h, Nat.add_zero]
  | succ remaining ih =>
    simp only [beginFrom, skipEmpty, List.isEmpty_iff_length_eq_zero]
    split
    · exact ih (i + 1) (by omega)
    · rfl

theorem begin_eq (t : HashMap K V) :
    begin t = ⟨skipEmpty t.data_ t.batches_ 0, 0⟩ :=
  beginFrom_eq t t.batches_ 0 (Nat.zero_add _)

theorem proper_begin (t : HashMap K V) (hlen : t.data_.length = t.batches_) :
    proper t.data_ (begin t) ∧ rank t.data_ (begin t) = 0 := by
  obtain ⟨_, h2, h3, h4⟩ := skipEmpty_spec t.data_ t.batches_ 0 (by omega)
  rw [begin_eq]
  refine ⟨⟨h2, h4, fun _ => rfl⟩, ?_⟩
  simp only [rank, h3]
  simp

theorem proper_next (data : List (List (K × V))) (it : iterator) (hp : proper data it)
    (hlt : it.index_ < data.length) :
    proper data (next data it) ∧ rank data (next data it) = rank data it + 1 := by
  have hpos := hp.2.1 hlt
  simp only [next]
  split
  · next heq =>
    obtain ⟨_, h2, h3, h4⟩ :=
      skipEmpty_spec data (data.length - (it.index_ + 1)) (it.index_ + 1) (by omega)
    refine ⟨⟨h2, h4, fun _ => rfl⟩, ?_⟩
    simp only [rank, h3, flatten_take_succ, List.length_append]
    omega
  · next hne =>
    refine ⟨⟨hp.1, fun _ => ?_, fun hc => ?_⟩, ?_⟩
    · show it.position_ + 1 < (bucket data it.index_).length
      omega
    · exact absurd hc (Nat.ne_of_lt hlt)
    · simp only [rank]
      omega

theorem rank_of_index_lt (data : List (List (K × V))) (it : iterator) (hp : proper data it)
    (hlt : it.index_ < data.length) :
    rank data it < data.flatten.length ∧ deref data it = data.flatten[rank data it]? := by
  have hpos := hp.2.1 hlt
  have hsplit := flatten_split data it.index_ hlt
  constructor
  · rw [hsplit]
    simp only [rank, List.length_append]
    omega
  · rw [hsplit, rank, List.getElem?_append_right (Nat.le_add_right _ _), Nat.add_sub_cancel_left,
      List.getElem?_append_left hpos]
    rfl

theorem rank_of_index_eq (data : List (List (K × V))) (it : iterator) (hp : proper data it)
    (heq : it.index_ = data.length) :
    rank data it = data.flatten.length ∧ it = ⟨data.length, 0⟩ := by
  have h0 := hp.2.2 heq
  constructor
  · rw [rank, heq, List.take_length, h0, Nat.add_zero]
  · cases it
    simp only at heq h0
    rw [heq, h0]

theorem proper_eq_end_iff (data : List (List (K × V))) (it : iterator) (hp : proper data it) :
    it = ⟨data.length, 0⟩ ↔ rank data it = data.flatten.length := by
  constructor
  · intro h
    exact (rank_of_index_eq data it hp (by rw [h])).1
  · intro h
    rcases Nat.lt_or_eq_of_le hp.1 with hlt | heq
    · have := (rank_of_index_lt data it hp hlt).1
      omega
    · exact (rank_of_index_eq data it hp heq).2

/-- The handle after `n` advances from `begin()`, for `n` up to the number of
entries: it has place `n` in the traversal. -/
theorem proper_iterate (t : HashMap K V) (hlen : t.data_.length = t.batches_) (n : Nat)
    (hn : n ≤ t.data_.flatten.length) :
    proper t.data_ ((next t.data_)^[n] (begin t)) ∧
      rank t.data_ ((next t.data_)^[n] (begin t)) = n := by
  induction n with
  | zero => exact proper_begin t hlen
  | succ n ih =>
    obtain ⟨hp, hr⟩ := ih (by omega)
    rw [Function.iterate_succ_apply']
    have hlt : ((next t.data_)^[n] (begin t)).index_ < t.data_.length := by
      rcases Nat.lt_or_eq_of_le hp.1 with hlt | heq
      · exact hlt
      · have := (rank_of_index_eq _ _ hp heq).1
        omega
    obtain ⟨hp2, hr2⟩ := proper_next t.data_ _ hp hlt
    exact ⟨hp2, by rw [hr2, hr]⟩

theorem collect_eq (t : HashMap K V) (hlen : t.data_.length = t.batches_) (fuel : Nat)
    (it : iterator) (hp : proper t.data_ it)
    (hr : rank t.data_ it + fuel = t.data_.flatten.length) :
    collect t fuel it = some (t.data_.flatten.drop (rank t.data_ it)) := by
  have hend : end_ t = ⟨t.data_.length, 0⟩ := by rw [end_, hlen]
  induction fuel generalizing it with
  | zero =>
    have hr2 : rank t.data_ it = t.data_.flatten.length := by omega
    have := (proper_eq_end_iff t.data_ it hp).mpr hr2
    rw [hr2, List.drop_length]
    simp only [collect, hend, this, if_true]
  | succ fuel ih =>
    have hne : it ≠ end_ t := by
      rw [hend]
      intro hc
      have := (proper_eq_end_iff t.data_ it hp).mp hc
      omega
    have hlt : it.index_ < t.data_.length := by
      rcases Nat.lt_or_eq_of_le hp.1 with hlt | heq
      · exact hlt
      · exact absurd (by rw [hend]; exact (rank_of_index_eq _ _ hp heq).2) hne
    obtain ⟨h1, h2⟩ := rank_of_index_lt t.data_ it hp hlt
    obtain ⟨hp2, hr2⟩ := proper_next t.data_ it hp hlt
    simp only [collect, hne, if_false, h2, List.getElem?_eq_getElem h1]
    rw [ih _ hp2 (by omega), hr2, Option.map_some', List.drop_eq_getElem_cons h1]

theorem items_eq (t : HashMap K V) (hlen : t.data_.length = t.batches_) :
    items t = some t.data_.flatten := by
  obtain ⟨hp, hr⟩ := proper_begin t hlen
  rw [items, collect_eq t hlen _ _ hp (by omega), hr, List.drop_zero]

/-! ## Construction, `clear`, copies -/

theorem empty_inv (hash : K → Nat) : Inv (empty hash : HashMap K V) where
  length_eq := rfl
  pos := Nat.one_pos
  placed := by
    intro i item hi
    change item ∈ bucket (List.replicate 1 []) i at hi
    rw [bucket_replicate_nil] at hi
    cases hi
  count := rfl
  nodup := List.nodup_nil

theorem clear_eq_empty (t : HashMap K V) : clear t = empty t.hash_ := rfl

theorem ofRange_inv (range : List (K × V)) (t : HashMap K V) (hinv : Inv t) :
    Inv (range.foldl (fun t item => (insert t item).1) t) := by
  induction range generalizing t with
  | nil => exact hinv
  | cons a rest ih => exact ih _ (insert_inv t a hinv)

theorem ofRange_hash (range : List (K × V)) (t : HashMap K V) :
    (range.foldl (fun t item => (insert t item).1) t).hash_ = t.hash_ := by
  induction range generalizing t with
  | nil => rfl
  | cons a rest ih => rw [List.foldl_cons, ih, insert_hash]

theorem assign_eq (t other : HashMap K V) (hlen : other.data_.length = other.batches_) :
    assign t other = some
      { data_ := other.data_.flatten.foldl
          (fun nd item => push_back nd (other.hash_ item.1 % other.batches_) (item.1, item.2))
          (List.replicate other.batches_ [])
        size_ := other.size_
        batches_ := other.batches_
        hash_ := other.hash_ } := by
  simp only [assign, items_eq other hlen, Option.map_some', getHash_zero]

theorem assign_spec (t other c : HashMap K V) (hinv : Inv other) (h : assign t other = some c) :
    Inv c ∧ c.hash_ = other.hash_ ∧ c.size_ = other.size_ ∧ c.batches_ = other.batches_ ∧
      c.data_.flatten.Perm other.data_.flatten := by
  rw [assign_eq t other hinv.length_eq, Option.some.injEq] at h
  subst h
  have hg : ∀ k, (fun k => other.hash_ k % other.batches_) k
      < (List.replicate other.batches_ ([] : List (K × V))).length := by
    intro k
    rw [List.length_replicate]
    exact Nat.mod_lt _ hinv.pos
  have hperm := foldl_push_back_perm (fun k => other.hash_ k % other.batches_)
    other.data_.flatten (List.replicate other.batches_ []) hg
  rw [flatten_replicate_nil, List.nil_append] at hperm
  refine ⟨⟨?_, hinv.pos, ?_, ?_, ?_⟩, rfl, rfl, rfl, hperm⟩
  · exact (foldl_push_back_length (fun k => other.hash_ k % other.batches_) _ _).trans
      (List.length_replicate _ _)
  · intro i item hi
    have hb := foldl_push_back_bucket (fun k => other.hash_ k % other.batches_)
      other.data_.flatten (List.replicate other.batches_ []) hg i
    change item ∈ bucket (List.foldl _ _ _) i at hi
    rw [hb, bucket_replicate_nil, List.nil_append, List.mem_filter] at hi
    simpa using hi.2
  · show other.size_ = _
    rw [hinv.count]
    exact hperm.length_eq.symm
  · exact ((hperm.map Prod.fst).nodup_iff).mpr hinv.nodup

/-- Every reachable table satisfies the table invariant. -/
theorem Reachable.inv [Inhabited V] {t : HashMap K V} (h : Reachable t) : Inv t := by
  induction h with
  | empty hash => exact empty_inv hash
  | insert t item _ ih => exact insert_inv t item ih
  | erase t key _ ih => exact erase_inv t key ih
  | index t key _ ih => exact insert_inv t (key, default) ih
  | clear t _ _ => exact empty_inv t.hash_
  | assign t other c _ _ hc _ iho => exact (assign_spec t other c iho hc).1

/-! ## Handles returned by `find` and `insert` -/

theorem find_eq_end_of_not_holds (t : HashMap K V) (k : K) (h : ¬ holds t k) :
    find t k = end_ t := by
  refine find_of_none t k ((findPosition_eq_none_iff k _).mpr ?_)
  intro item hi hk
  by_cases hlt : t.hash_ k % t.batches_ < t.data_.length
  · exact h ⟨_, bucket_mem t.data_ _ hlt, item, hi, hk⟩
  · rw [bucket_of_le _ _ (Nat.le_of_not_lt hlt)] at hi
    cases hi

theorem deref_find (t : HashMap K V) (k : K) (hinv : Inv t) (h : holds t k) :
    ∃ v, stored t k v ∧ deref t.data_ (find t k) = some (k, v) := by
  have hne := (find_ne_end_iff_holds t k hinv).mpr h
  rw [Ne, find_eq_end_iff t k hinv.pos] at hne
  cases hf : findPosition k (bucket t.data_ (t.hash_ k % t.batches_)) with
  | none => exact absurd hf hne
  | some p =>
    obtain ⟨⟨k1, v⟩, h1, h2⟩ := findPosition_eq_some k _ p hf
    simp only at h2
    subst h2
    have hlt : t.hash_ k1 % t.batches_ < t.data_.length := by
      rw [hinv.length_eq]; exact Nat.mod_lt _ hinv.pos
    refine ⟨v, ⟨_, bucket_mem t.data_ _ hlt, List.getElem?_mem h1⟩, ?_⟩
    rw [find_of_some t k1 p hf]
    exact h1

theorem deref_find_of_stored (t : HashMap K V) (k : K) (v : V) (hinv : Inv t)
    (h : stored t k v) : deref t.data_ (find t k) = some (k, v) := by
  obtain ⟨w, hw, hd⟩ := deref_find t k hinv ((holds_iff_stored t k).mpr ⟨v, h⟩)
  rw [hd, stored_unique t k v w hinv h hw]

theorem deref_appended (t1 : HashMap K V) (item : K × V)
    (hlen : t1.data_.length = t1.batches_) (hpos : 0 < t1.batches_) :
    bucket (appended t1 item).data_ (t1.hash_ item.1 % t1.batches_)
        = bucket t1.data_ (t1.hash_ item.1 % t1.batches_) ++ [item] ∧
    deref (appended t1 item).data_
      ⟨t1.hash_ item.1 % t1.batches_,
        (bucket (appended t1 item).data_ (t1.hash_ item.1 % t1.batches_)).length - 1⟩
      = some item := by
  have hlt : t1.hash_ item.1 % t1.batches_ < t1.data_.length := by
    rw [hlen]; exact Nat.mod_lt _ hpos
  have hb : bucket (appended t1 item).data_ (t1.hash_ item.1 % t1.batches_)
      = bucket t1.data_ (t1.hash_ item.1 % t1.batches_) ++ [item] :=
    bucket_push_back_self _ _ _ hlt
  refine ⟨hb, ?_⟩
  simp only [deref, hb, List.length_append, List.length_singleton, Nat.add_sub_cancel]
  rw [List.getElem?_append_right (Nat.le_refl _), Nat.sub_self]
  rfl

theorem sample_reachable : Reachable sample :=
  Reachable.insert _ _ (Reachable.insert _ _ (Reachable.insert _ _ (Reachable.empty _)))

/-! ## The contract of the operations -/

/-- C1: in a reachable table `find(k)` returns a handle other than `end()` exactly
when some bucket holds an entry with key `k`, and the handle then dereferences to
that stored entry `(k, v)`; otherwise it returns `end() = (batches_, 0)`.  (`find` has
no assignment to a member, so it is a function of the table and returns only the
handle.) -/
theorem find_contract [Inhabited V] (t : HashMap K V) (k : K) (h : Reachable t) :
    (find t k ≠ end_ t ↔ holds t k) ∧
    (holds t k → ∃ v, stored t k v ∧ deref t.data_ (find t k) = some (k, v)) ∧
    (¬ holds t k → find t k = ⟨t.batches_, 0⟩) :=
  ⟨find_ne_end_iff_holds t k h.inv, deref_find t k h.inv, find_eq_end_of_not_holds t k⟩

theorem find_contract_witness :
    Reachable sample ∧
    (find sample 3 ≠ end_ sample ↔ holds sample 3) ∧
    (holds sample 3 → ∃ v, stored sample 3 v ∧ deref sample.data_ (find sample 3) = some (3, v)) ∧
    (¬ holds sample 3 → find sample 3 = ⟨sample.batches_, 0⟩) :=
  ⟨sample_reachable, find_contract sample 3 sample_reachable⟩

/-- C2: `insert((k, v))` of a key no bucket holds: with `t1` the table after the growth
check (rehashed to `2 * batches_` when `batches_ < size_` for the counter before the
insert, else `t`), the result is `t1` with `(k, v)` appended to bucket
`hash(k) % t1.batches_` and `size_` one larger; the entries are those of `t` and
`(k, v)`; the handle is (that bucket, its last position) and dereferences to `(k, v)`. -/
theorem insert_absent (t : HashMap K V) (k : K) (v : V)
    (hlen : t.data_.length = t.batches_) (hpos : 0 < t.batches_) (hk : ¬ holds t k) :
    ∃ t1 : HashMap K V,
      t1 = (if t.batches_ < t.size_ then rehash t (2 * t.batches_) else t) ∧
      t1.data_.length = t1.batches_ ∧ t.hash_ k % t1.batches_ < t1.batches_ ∧
      (insert t (k, v)).1 =
        { data_ := t1.data_.set (t.hash_ k % t1.batches_)
            (bucket t1.data_ (t.hash_ k % t1.batches_) ++ [(k, v)])
          size_ := t.size_ + 1
          batches_ := t1.batches_
          hash_ := t.hash_ } ∧
      (insert t (k, v)).1.data_.flatten.Perm (t.data_.flatten ++ [(k, v)]) ∧
      (insert t (k, v)).2 = ⟨t.hash_ k % t1.batches_,
        (bucket (insert t (k, v)).1.data_ (t.hash_ k % t1.batches_)).length - 1⟩ ∧
      deref (insert t (k, v)).1.data_ (insert t (k, v)).2 = some (k, v) := by
  have hd : double_batches_if_needed t
      = (if t.batches_ < t.size_ then rehash t (2 * t.batches_) else t) := by
    rw [double_batches_if_needed, Nat.mul_comm]
  have hl := double_batches_length t hlen
  have hp := double_batches_pos t hpos
  have hh := double_batches_hash t
  have hs := double_batches_size t
  have hderef := deref_appended (double_batches_if_needed t) (k, v) hl hp
  refine ⟨double_batches_if_needed t, hd, hl, Nat.mod_lt _ hp, ?_⟩
  rw [insert_of_find_eq_end t (k, v) (find_eq_end_of_not_holds t k hk)]
  rw [hh] at hderef
  refine ⟨?_, ?_, ?_, ?_⟩
  · simp only [appended, push_back, hh, hs]
  · exact (appended_perm _ (k, v) hl hp).trans
      (List.Perm.append_right _ (double_batches_perm t hpos))
  · rw [hh]
  · rw [hh]
    exact hderef.2

theorem insert_absent_witness :
    sample.data_.length = sample.batches_ ∧ 0 < sample.batches_ ∧ ¬ holds sample 4 ∧
    ∃ t1 : HashMap Nat Nat,
      t1 = (if sample.batches_ < sample.size_ then rehash sample (2 * sample.batches_)
        else sample) ∧
      t1.data_.length = t1.batches_ ∧ sample.hash_ 4 % t1.batches_ < t1.batches_ ∧
      (insert sample (4, 40)).1 =
        { data_ := t1.data_.set (sample.hash_ 4 % t1.batches_)
            (bucket t1.data_ (sample.hash_ 4 % t1.batches_) ++ [(4, 40)])
          size_ := sample.size_ + 1
          batches_ := t1.batches_
          hash_ := sample.hash_ } ∧
      (insert sample (4, 40)).1.data_.flatten.Perm (sample.data_.flatten ++ [(4, 40)]) ∧
      (insert sample (4, 40)).2 = ⟨sample.hash_ 4 % t1.batches_,
        (bucket (insert sample (4, 40)).1.data_ (sample.hash_ 4 % t1.batches_)).length - 1⟩ ∧
      deref (insert sample (4, 40)).1.data_ (insert sample (4, 40)).2 = some (4, 40) :=
  ⟨by decide, by decide, by decide, insert_absent sample 4 40 (by decide) (by decide) (by decide)⟩

/-- C3: `insert((k, v))` of a key stored in a reachable table with value `v0` returns
the table unchanged (bucket array, `batches_`, `size_`: no rehash, the value stays
`v0`) and the handle `find(k)`, which dereferences to `(k, v0)`. -/
theorem insert_present [Inhabited V] (t : HashMap K V) (k : K) (v v0 : V) (h : Reachable t)
    (hs : stored t k v0) :
    (insert t (k, v)).1 = t ∧ (insert t (k, v)).2 = find t k ∧
    deref t.data_ (find t k) = some (k, v0) ∧ stored (insert t (k, v)).1 k v0 := by
  have hh : holds t k := (holds_iff_stored t k).mpr ⟨v0, hs⟩
  have hi := insert_of_find_ne_end t (k, v) ((find_ne_end_iff_holds t k h.inv).mpr hh)
  rw [hi]
  exact ⟨rfl, rfl, deref_find_of_stored t k v0 h.inv hs, hs⟩

theorem insert_present_witness :
    Reachable sample ∧ stored sample 2 20 ∧
    (insert sample (2, 77)).1 = sample ∧ (insert sample (2, 77)).2 = find sample 2 ∧
    deref sample.data_ (find sample 2) = some (2, 20) ∧
    stored (insert sample (2, 77)).1 2 20 :=
  ⟨sample_reachable, by decide,
    insert_present sample 2 77 20 sample_reachable (by decide)⟩

/-! ## Inserting a sequence of entries -/

theorem insert_holds (t : HashMap K V) (item : K × V) (hinv : Inv t) (k : K) :
    holds (insert t item).1 k ↔ holds t k ∨ item.1 = k := by
  simp only [holds_iff_stored, insert_stored t item hinv]
  constructor
  · rintro ⟨v, hs | ⟨_, he⟩⟩
    · exact Or.inl ⟨v, hs⟩
    · exact Or.inr (by rw [← he])
  · rintro (⟨v, hs⟩ | he)
    · exact ⟨v, Or.inl hs⟩
    · by_cases hh : ∃ w, stored t item.1 w
      · obtain ⟨w, hw⟩ := hh
        exact ⟨w, Or.inl (he ▸ hw)⟩
      · exact ⟨item.2, Or.inr ⟨hh, by rw [← he]⟩⟩

theorem foldl_insert_stored (range : List (K × V)) (t : HashMap K V) (hinv : Inv t)
    (k : K) (v : V) :
    stored (range.foldl (fun t item => (insert t item).1) t) k v
      ↔ stored t k v ∨
        (¬ holds t k ∧ range.find? (fun item => item.1 = k) = some (k, v)) := by
  induction range generalizing t with
  | nil => simp
  | cons a rest ih =>
    rw [List.foldl_cons, ih _ (insert_inv t a hinv), insert_stored t a hinv k v,
      insert_holds t a hinv k, List.find?_cons]
    by_cases hak : a.1 = k
    · subst hak
      simp only [decide_True, or_true, not_true_eq_false, false_and, or_false,
        Option.some.injEq]
      constructor
      · rintro (hs | ⟨hn, he⟩)
        · exact Or.inl hs
        · exact Or.inr ⟨hn, he.symm⟩
      · rintro (hs | ⟨hn, he⟩)
        · exact Or.inl hs
        · exact Or.inr ⟨hn, he.symm⟩
    · have hne : (k, v) ≠ a := by
        intro hc
        exact hak (by rw [← hc])
      simp only [hak, decide_False, or_false, hne, and_false]

theorem find?_key_isSome (range : List (K × V)) (k : K) :
    (∃ v, range.find? (fun item => item.1 = k) = some (k, v)) ↔ k ∈ range.map Prod.fst := by
  constructor
  · rintro ⟨v, h⟩
    exact List.mem_map.mpr ⟨(k, v), List.mem_of_find?_eq_some h, rfl⟩
  · intro h
    cases hf : range.find? (fun item => decide (item.1 = k)) with
    | none =>
      obtain ⟨item, hi, rfl⟩ := List.mem_map.mp h
      have := List.find?_eq_none.mp hf item hi
      simp at this
    | some item =>
      have := List.find?_some hf
      simp only [decide_eq_true_eq] at this
      exact ⟨item.2, by rw [← this]⟩

/-- C4: inserting a list of entries in order into the empty table (the range, vector
and initializer-list constructors), for any hash function: no key is stored twice,
every key of the list is stored, the stored value of a key is the value of its first
occurrence in the list, and `size()` is the number of distinct keys of the list. -/
theorem ofRange_contract (hash : K → Nat) (l : List (K × V)) :
    ((ofRange l hash).data_.flatten.map Prod.fst).Nodup ∧
    (∀ k ∈ l.map Prod.fst, holds (ofRange l hash) k) ∧
    (∀ k v, stored (ofRange l hash) k v ↔ l.find? (fun item => item.1 = k) = some (k, v)) ∧
    size (ofRange l hash) = (l.map Prod.fst).dedup.length := by
  have hinv : Inv (ofRange l hash) := ofRange_inv l _ (empty_inv hash)
  have hempty : ∀ k, ¬ holds (empty hash : HashMap K V) k := by
    rintro k ⟨batch, hb, item, hi, _⟩
    have hb2 : batch = [] := by simpa [empty] using hb
    rw [hb2] at hi
    cases hi
  have hstored : ∀ k v, stored (ofRange l hash) k v
      ↔ l.find? (fun item => item.1 = k) = some (k, v) := by
    intro k v
    rw [ofRange, foldl_insert_stored l _ (empty_inv hash) k v]
    constructor
    · rintro (⟨batch, hb, hm⟩ | ⟨_, h⟩)
      · exact absurd ⟨batch, hb, (k, v), hm, rfl⟩ (hempty k)
      · exact h
    · intro h
      exact Or.inr ⟨hempty k, h⟩
  have hholds : ∀ k, holds (ofRange l hash) k ↔ k ∈ l.map Prod.fst := by
    intro k
    rw [holds_iff_stored, ← find?_key_isSome]
    simp only [hstored]
  refine ⟨hinv.nodup, fun k hk => (hholds k).mpr hk, hstored, ?_⟩
  have hperm : ((ofRange l hash).data_.flatten.map Prod.fst).Perm (l.map Prod.fst).dedup := by
    rw [List.perm_ext_iff_of_nodup hinv.nodup (List.nodup_dedup _)]
    intro k
    rw [List.mem_dedup, ← hholds k, holds_iff_mem_keys]
  rw [size, hinv.count, ← hperm.length_eq, List.length_map]

/-- C5: `erase(k)` on a reachable table: afterwards `find(k)` is `end()`; every other
key is stored after the call iff it was stored before, with the same value; `size()`
is one less when `k` was stored, and when `k` was not stored neither the stored
entries nor `size()` change. -/
theorem erase_contract [Inhabited V] (t : HashMap K V) (k : K) (h : Reachable t) :
    find (erase t k) k = end_ (erase t k) ∧
    (∀ k1 v, k1 ≠ k → (stored (erase t k) k1 v ↔ stored t k1 v)) ∧
    (holds t k → size (erase t k) + 1 = size t) ∧
    (¬ holds t k → size (erase t k) = size t ∧
      ∀ k1 v, stored (erase t k) k1 v ↔ stored t k1 v) := by
  obtain ⟨hinv, _, hno, hyes⟩ := erase_spec t k h.inv
  by_cases hh : holds t k
  · obtain ⟨v0, hperm, hsize⟩ := hyes hh
    have hnd := (hperm.map Prod.fst).nodup_iff.mp h.inv.nodup
    rw [List.map_cons] at hnd
    have hnot : ¬ holds (erase t k) k := by
      rw [holds_iff_mem_keys]
      exact (List.nodup_cons.mp hnd).1
    refine ⟨find_eq_end_of_not_holds _ k hnot, ?_, fun _ => hsize, fun hc => absurd hh hc⟩
    intro k1 v hk
    rw [stored_iff_mem_flatten, stored_iff_mem_flatten, hperm.mem_iff, List.mem_cons]
    constructor
    · exact Or.inr
    · rintro (he | hm)
      · exact absurd (congrArg Prod.fst he) hk
      · exact hm
  · obtain ⟨hperm, hsize⟩ := hno hh
    have hnot : ¬ holds (erase t k) k := by
      rw [holds_iff_mem_keys, (hperm.map Prod.fst).mem_iff, ← holds_iff_mem_keys]
      exact hh
    have hst : ∀ k1 v, stored (erase t k) k1 v ↔ stored t k1 v := by
      intro k1 v
      rw [stored_iff_mem_flatten, stored_iff_mem_flatten]
      exact hperm.mem_iff
    exact ⟨find_eq_end_of_not_holds _ k hnot, fun k1 v _ => hst k1 v,
      fun hc => absurd hc hh, fun _ => ⟨hsize, hst⟩⟩

theorem erase_contract_witness :
    Reachable sample ∧
    find (erase sample 1) 1 = end_ (erase sample 1) ∧
    (∀ k1 v, k1 ≠ 1 → (stored (erase sample 1) k1 v ↔ stored sample k1 v)) ∧
    (holds sample 1 → size (erase sample 1) + 1 = size sample) ∧
    (¬ holds sample 1 → size (erase sample 1) = size sample ∧
      ∀ k1 v, stored (erase sample 1) k1 v ↔ stored sample k1 v) :=
  ⟨sample_reachable, erase_contract sample 1 sample_reachable⟩

/-- C6: `at(k)` on a reachable table throws `std::out_of_range` exactly when no entry
with key `k` is stored, and otherwise returns the value stored under `k`, the value of
the entry `find(k)` points to.  (`at` is `const` and has no assignment to a member: it
is a function of the table and returns only its outcome.) -/
theorem at_contract [Inhabited V] (t : HashMap K V) (k : K) (h : Reachable t) :
    (at_ t k = .error .out_of_range ↔ ¬ holds t k) ∧
    (∀ v, stored t k v →
      at_ t k = .ok v ∧ deref t.data_ (find t k) = some (k, v)) := by
  have hiff := find_ne_end_iff_holds t k h.inv
  constructor
  · constructor
    · intro he hh
      obtain ⟨v, _, hd⟩ := deref_find t k h.inv hh
      simp only [at_, hiff.mpr hh, if_false, hd] at he
      cases he
    · intro hno
      simp only [at_, find_eq_end_of_not_holds t k hno, if_true]
  · intro v hs
    have hd := deref_find_of_stored t k v h.inv hs
    have hne := hiff.mpr ((holds_iff_stored t k).mpr ⟨v, hs⟩)
    exact ⟨by simp only [at_, hne, if_false, hd], hd⟩

theorem at_contract_witness :
    Reachable sample ∧
    (at_ sample 2 = .error .out_of_range ↔ ¬ holds sample 2) ∧
    (∀ v, stored sample 2 v →
      at_ sample 2 = .ok v ∧ deref sample.data_ (find sample 2) = some (2, v)) :=
  ⟨sample_reachable, at_contract sample 2 sample_reachable⟩

/-- C7: `operator[](k)` on a reachable table leaves the table `insert((k, ValueType()))`
leaves and returns the value stored under `k` there: for an absent key a default-valued
entry is inserted, `size()` grows by one and the default value is returned; for a key
stored with `v0` the table is unchanged and `v0` is returned. -/
theorem index_contract [Inhabited V] (t : HashMap K V) (k : K) (h : Reachable t) :
    (index t k).1 = (insert t (k, default)).1 ∧
    (∃ v, (index t k).2 = some v ∧ stored (index t k).1 k v) ∧
    (¬ holds t k →
      (index t k).2 = some default ∧ stored (index t k).1 k default ∧
      size (index t k).1 = size t + 1) ∧
    (∀ v0, stored t k v0 → (index t k).1 = t ∧ (index t k).2 = some v0) := by
  have hiff := find_ne_end_iff_holds t k h.inv
  have hnew : ¬ holds t k →
      (index t k).2 = some default ∧ stored (index t k).1 k default ∧
      size (index t k).1 = size t + 1 := by
    intro hno
    have hd := double_batches_inv t h.inv
    have hderef := (deref_appended (double_batches_if_needed t) (k, default)
      hd.length_eq hd.pos).2
    have hst := (insert_stored t (k, default) h.inv k default).mpr (Or.inr ⟨hno, rfl⟩)
    have hsz := ((insert_perm t (k, default) h.inv).2 hno).2
    refine ⟨?_, hst, hsz⟩
    simp only [index]
    rw [insert_of_find_eq_end t (k, default) (find_eq_end_of_not_holds t k hno)]
    simp only [hderef, Option.map_some']
  have hold : ∀ v0, stored t k v0 → (index t k).1 = t ∧ (index t k).2 = some v0 := by
    intro v0 hs
    have hne := hiff.mpr ((holds_iff_stored t k).mpr ⟨v0, hs⟩)
    simp only [index]
    rw [insert_of_find_ne_end t (k, default) hne]
    simp only [deref_find_of_stored t k v0 h.inv hs, Option.map_some', and_self]
  refine ⟨rfl, ?_, hnew, hold⟩
  by_cases hh : holds t k
  · obtain ⟨v0, hs⟩ := (holds_iff_stored t k).mp hh
    obtain ⟨h1, h2⟩ := hold v0 hs
    exact ⟨v0, h2, by rw [h1]; exact hs⟩
  · exact ⟨default, (hnew hh).1, (hnew hh).2.1⟩

theorem index_contract_witness :
    Reachable sample ∧
    (index sample 7).1 = (insert sample (7, default)).1 ∧
    (∃ v, (index sample 7).2 = some v ∧ stored (index sample 7).1 7 v) ∧
    (¬ holds sample 7 →
      (index sample 7).2 = some default ∧ stored (index sample 7).1 7 default ∧
      size (index sample 7).1 = size sample + 1) ∧
    (∀ v0, stored sample 7 v0 → (index sample 7).1 = sample ∧ (index sample 7).2 = some v0) :=
  ⟨sample_reachable, index_contract sample 7 sample_reachable⟩

/-- C8: `clear()` of any table yields the empty-table state, the state of a table
freshly constructed with the same hash function: `size()` is 0, `batches_` is 1 with a
single empty bucket, `begin()` equals `end()`, and `find(k)` is `end()` for every `k`. -/
theorem clear_contract (t : HashMap K V) :
    clear t = empty t.hash_ ∧ size (clear t) = 0 ∧ (clear t).batches_ = 1 ∧
    (clear t).data_ = [[]] ∧ begin (clear t) = end_ (clear t) ∧
    ∀ k, find (clear t) k = end_ (clear t) := by
  refine ⟨rfl, rfl, rfl, rfl, rfl, fun k => ?_⟩
  refine find_of_none _ k ?_
  show findPosition k (bucket [[]] (t.hash_ k % 1)) = none
  rw [Nat.mod_one]
  rfl

/-! ## Traversal and copies -/

theorem skipEmpty_before (data : List (List (K × V))) (remaining i j : Nat)
    (hij : i ≤ j) (hj : j < skipEmpty data remaining i) : bucket data j = [] := by
  induction remaining generalizing i with
  | zero =>
    have e : skipEmpty data 0 i = i := rfl
    rw [e] at hj
    omega
  | succ remaining ih =>
    have e : skipEmpty data (remaining + 1) i
        = if (bucket data i).length = 0 then skipEmpty data remaining (i + 1) else i := rfl
    rw [e] at hj
    by_cases hz : (bucket data i).length = 0
    · rw [if_pos hz] at hj
      rcases Nat.eq_or_lt_of_le hij with heq | hlt
      · rw [← heq]
        exact List.length_eq_zero.mp hz
      · exact ih (i + 1) hlt hj
    · rw [if_neg hz] at hj
      omega

theorem index_lt_of_rank_lt (data : List (List (K × V))) (it : iterator)
    (hp : proper data it) (hr : rank data it < data.flatten.length) :
    it.index_ < data.length := by
  rcases Nat.lt_or_eq_of_le hp.1 with hlt | heq
  · exact hlt
  · have := (rank_of_index_eq data it hp heq).1
    omega

theorem find?_key_of_nodup (l : List (K × V)) (hnd : (l.map Prod.fst).Nodup) (k : K) (v : V) :
    l.find? (fun item => item.1 = k) = some (k, v) ↔ (k, v) ∈ l := by
  constructor
  · exact List.mem_of_find?_eq_some
  · intro hm
    obtain ⟨w, hw⟩ := (find?_key_isSome l k).mpr (List.mem_map.mpr ⟨(k, v), hm, rfl⟩)
    have := List.inj_on_of_nodup_map hnd (List.mem_of_find?_eq_some hw) hm rfl
    rw [hw, this]

/-- C9: iteration over a reachable table: `begin()` is `(i, 0)` for the smallest index
`i` of a non-empty bucket, or `end()` when there are no entries; for `n < size()` the
handle after `n` advances of `begin()` is not `end()`, addresses a live entry (its
index is below `batches_`, its position below that bucket's length) and dereferences
to the `n`-th entry of the concatenation of the buckets in index order; after exactly
`size()` advances the handle is `end()`; so the traversal yields that concatenation,
every stored entry once. -/
theorem iteration_contract [Inhabited V] (t : HashMap K V) (h : Reachable t) :
    (size t = 0 → begin t = end_ t) ∧
    (0 < size t → ∃ i, begin t = ⟨i, 0⟩ ∧ i < t.batches_ ∧ bucket t.data_ i ≠ [] ∧
      ∀ j, j < i → bucket t.data_ j = []) ∧
    (∀ n, n < size t →
      (next t.data_)^[n] (begin t) ≠ end_ t ∧
      ((next t.data_)^[n] (begin t)).index_ < t.batches_ ∧
      ((next t.data_)^[n] (begin t)).position_
        < (bucket t.data_ ((next t.data_)^[n] (begin t)).index_).length ∧
      ∃ item, deref t.data_ ((next t.data_)^[n] (begin t)) = some item ∧
        t.data_.flatten[n]? = some item) ∧
    (next t.data_)^[size t] (begin t) = end_ t ∧
    size t = t.data_.flatten.length ∧
    items t = some t.data_.flatten := by
  have hinv := h.inv
  have hlen := hinv.length_eq
  have hcount : size t = t.data_.flatten.length := hinv.count
  have hend : end_ t = ⟨t.data_.length, 0⟩ := by rw [end_, hlen]
  have hsteps : ∀ n, n < size t →
      (next t.data_)^[n] (begin t) ≠ end_ t ∧
      ((next t.data_)^[n] (begin t)).index_ < t.batches_ ∧
      ((next t.data_)^[n] (begin t)).position_
        < (bucket t.data_ ((next t.data_)^[n] (begin t)).index_).length ∧
      ∃ item, deref t.data_ ((next t.data_)^[n] (begin t)) = some item ∧
        t.data_.flatten[n]? = some item := by
    intro n hn
    rw [hcount] at hn
    obtain ⟨hp, hr⟩ := proper_iterate t hlen n (Nat.le_of_lt hn)
    have hidx := index_lt_of_rank_lt t.data_ _ hp (by rw [hr]; exact hn)
    obtain ⟨_, hd⟩ := rank_of_index_lt t.data_ _ hp hidx
    rw [hr] at hd
    refine ⟨?_, by rw [← hlen]; exact hidx, hp.2.1 hidx,
      t.data_.flatten[n], by rw [hd, List.getElem?_eq_getElem hn],
      List.getElem?_eq_getElem hn⟩
    intro hc
    rw [hc, hend] at hidx
    exact Nat.lt_irrefl _ hidx
  refine ⟨?_, ?_, hsteps, ?_, hcount, items_eq t hlen⟩
  · intro h0
    obtain ⟨hp, hr⟩ := proper_begin t hlen
    rw [hend]
    exact (proper_eq_end_iff t.data_ _ hp).mpr (by rw [hr, ← hcount, h0])
  · intro hpos
    obtain ⟨_, hidx, hposn, _⟩ := hsteps 0 hpos
    simp only [Function.iterate_zero, id_eq] at hidx hposn
    refine ⟨skipEmpty t.data_ t.batches_ 0, begin_eq t, ?_, ?_, ?_⟩
    · rw [begin_eq] at hidx
      exact hidx
    · rw [begin_eq] at hposn
      exact List.ne_nil_of_length_pos (Nat.lt_of_le_of_lt (Nat.zero_le _) hposn)
    · intro j hj
      exact skipEmpty_before t.data_ t.batches_ 0 j (Nat.zero_le _) hj
  · obtain ⟨hp, hr⟩ := proper_iterate t hlen (size t) (by rw [hcount])
    rw [hend]
    exact (proper_eq_end_iff t.data_ _ hp).mpr (by rw [hr, hcount])

theorem iteration_contract_witness :
    Reachable sample ∧
    (size sample = 0 → begin sample = end_ sample) ∧
    (0 < size sample → ∃ i, begin sample = ⟨i, 0⟩ ∧ i < sample.batches_ ∧
      bucket sample.data_ i ≠ [] ∧ ∀ j, j < i → bucket sample.data_ j = []) ∧
    (∀ n, n < size sample →
      (next sample.data_)^[n] (begin sample) ≠ end_ sample ∧
      ((next sample.data_)^[n] (begin sample)).index_ < sample.batches_ ∧
      ((next sample.data_)^[n] (begin sample)).position_
        < (bucket sample.data_ ((next sample.data_)^[n] (begin sample)).index_).length ∧
      ∃ item, deref sample.data_ ((next sample.data_)^[n] (begin sample)) = some item ∧
        sample.data_.flatten[n]? = some item) ∧
    (next sample.data_)^[size sample] (begin sample) = end_ sample ∧
    size sample = sample.data_.flatten.length ∧
    items sample = some sample.data_.flatten :=
  ⟨sample_reachable, iteration_contract sample sample_reachable⟩

/-- C10: for a reachable `s`, the copy constructor `HashMap(s)` and the copy
assignment `t = s` into any destination `t` both complete, and each resulting table
has the hash function of `s`, the `size()` of `s`, exactly the stored `(key, value)`
pairs of `s`, and satisfies the table invariant. -/
theorem copy_contract [Inhabited V] (s t : HashMap K V) (hs : Reachable s) :
    ∃ c1 c2, copy s = some c1 ∧ assign t s = some c2 ∧
      ∀ c, c = c1 ∨ c = c2 →
        c.hash_ = s.hash_ ∧ size c = size s ∧
        (∀ k v, stored c k v ↔ stored s k v) ∧ Inv c := by
  have hinv := hs.inv
  have hempty : ∀ k, ¬ holds (empty s.hash_ : HashMap K V) k := by
    rintro k ⟨batch, hb, item, hi, _⟩
    have hb2 : batch = [] := by simpa [empty] using hb
    rw [hb2] at hi
    cases hi
  have hc1 : copy s = some (ofRange s.data_.flatten s.hash_) := by
    rw [copy, items_eq s hinv.length_eq, Option.map_some']
  have hi1 : Inv (ofRange s.data_.flatten s.hash_) := ofRange_inv _ _ (empty_inv _)
  have hst1 : ∀ k v, stored (ofRange s.data_.flatten s.hash_) k v ↔ stored s k v := by
    intro k v
    rw [ofRange, foldl_insert_stored _ _ (empty_inv _) k v, find?_key_of_nodup _ hinv.nodup,
      stored_iff_mem_flatten s]
    constructor
    · rintro (⟨batch, hb, hm⟩ | ⟨_, hm⟩)
      · exact absurd ⟨batch, hb, (k, v), hm, rfl⟩ (hempty k)
      · exact hm
    · intro hm
      exact Or.inr ⟨hempty k, hm⟩
  have hsz1 : size (ofRange s.data_.flatten s.hash_) = size s := by
    have hperm : ((ofRange s.data_.flatten s.hash_).data_.flatten.map Prod.fst).Perm
        (s.data_.flatten.map Prod.fst) := by
      rw [List.perm_ext_iff_of_nodup hi1.nodup hinv.nodup]
      intro k
      rw [← holds_iff_mem_keys, ← holds_iff_mem_keys, holds_iff_stored, holds_iff_stored]
      simp only [hst1]
    have hl := hperm.length_eq
    rw [List.length_map, List.length_map] at hl
    rw [size, size, hi1.count, hinv.count, hl]
  obtain ⟨c2, hc2⟩ : ∃ c2, assign t s = some c2 := ⟨_, assign_eq t s hinv.length_eq⟩
  obtain ⟨hi2, hh2, hsz2, _, hperm2⟩ := assign_spec t s c2 hinv hc2
  refine ⟨_, c2, hc1, hc2, ?_⟩
  rintro c (rfl | rfl)
  · exact ⟨ofRange_hash _ _, hsz1, hst1, hi1⟩
  · refine ⟨hh2, hsz2, fun k v => ?_, hi2⟩
    rw [stored_iff_mem_flatten, stored_iff_mem_flatten]
    exact hperm2.mem_iff

theorem copy_contract_witness :
    Reachable sample ∧
    ∃ c1 c2, copy sample = some c1 ∧ assign (empty fun _ => 0) sample = some c2 ∧
      ∀ c, c = c1 ∨ c = c2 →
        c.hash_ = sample.hash_ ∧ size c = size sample ∧
        (∀ k v, stored c k v ↔ stored sample k v) ∧ Inv c :=
  ⟨sample_reachable, copy_contract sample (empty fun _ => 0) sample_reachable⟩

/-! ## The counters along `insert` and `erase` -/

theorem reachable_foldl_insert [Inhabited V] (l : List (K × V)) (t : HashMap K V)
    (h : Reachable t) : Reachable (l.foldl (fun t item => (insert t item).1) t) := by
  induction l generalizing t with
  | nil => exact h
  | cons a rest ih => exact ih _ (Reachable.insert t a h)

theorem reachable_foldl_erase [Inhabited V] (ks : List K) (t : HashMap K V)
    (h : Reachable t) : Reachable (ks.foldl erase t) := by
  induction ks generalizing t with
  | nil => exact h
  | cons a rest ih => exact ih _ (Reachable.erase t a h)

theorem sparse_reachable : Reachable sparse :=
  reachable_foldl_erase _ _ (reachable_foldl_insert _ _ (Reachable.empty _))

theorem double_batches_batches (t : HashMap K V) :
    (double_batches_if_needed t).batches_
      = if t.batches_ < t.size_ then t.batches_ * 2 else t.batches_ := by
  unfold double_batches_if_needed
  split <;> rfl

theorem halve_batches_batches (t : HashMap K V) :
    (halve_batches_if_needed t).batches_
      = if t.batches_ > MIN_SIZE_TO_HALVE ∧ t.batches_ > 2 * t.size_ then t.batches_ / 2
        else t.batches_ := by
  unfold halve_batches_if_needed
  split <;> rfl

theorem insert_counters (t : HashMap K V) (item : K × V)
    (hno : ¬ holds t item.1) : counters (insert t item).1 = growStep (counters t) := by
  rw [insert_of_find_eq_end t item (find_eq_end_of_not_holds t _ hno)]
  show ((double_batches_if_needed t).batches_, (double_batches_if_needed t).size_ + 1) = _
  rw [double_batches_batches, double_batches_size]
  rfl

theorem insert_batches_le (t : HashMap K V) (item : K × V) :
    t.batches_ ≤ (insert t item).1.batches_ := by
  by_cases h : find t item.1 = end_ t
  · rw [insert_of_find_eq_end t item h]
    show _ ≤ (double_batches_if_needed t).batches_
    rw [double_batches_batches]
    split <;> omega
  · rw [insert_of_find_ne_end t item h]

theorem erase_batches (t : HashMap K V) (key : K) :
    (erase t key).batches_
      = if t.batches_ > MIN_SIZE_TO_HALVE ∧ t.batches_ > 2 * t.size_ then t.batches_ / 2
        else t.batches_ := by
  rw [← halve_batches_batches]
  cases hf : findPosition key (bucket (halve_batches_if_needed t).data_
      ((halve_batches_if_needed t).hash_ key % (halve_batches_if_needed t).batches_)) with
  | none => rw [erase_of_none t key hf]
  | some p => rw [erase_of_some t key p hf]; rfl

theorem erase_counters (t : HashMap K V) (key : K) (hinv : Inv t) (hh : holds t key) :
    counters (erase t key) = shrinkStep (counters t) := by
  obtain ⟨v, _, hsize⟩ := (erase_spec t key hinv).2.2.2 hh
  show ((erase t key).batches_, (erase t key).size_) = _
  rw [erase_batches]
  simp only [shrinkStep, counters]
  congr 1
  omega

theorem erase_holds (t : HashMap K V) (key k1 : K) (hinv : Inv t) (hne : k1 ≠ key)
    (h1 : holds t k1) : holds (erase t key) k1 := by
  rw [holds_iff_mem_keys] at h1 ⊢
  by_cases hh : holds t key
  · obtain ⟨v, hperm, _⟩ := (erase_spec t key hinv).2.2.2 hh
    rw [(hperm.map Prod.fst).mem_iff, List.map_cons, List.mem_cons] at h1
    rcases h1 with he | hm
    · exact absurd he hne
    · exact hm
  · exact ((((erase_spec t key hinv).2.2.1 hh).1.map Prod.fst).mem_iff).mpr h1

theorem foldl_insert_counters (l : List (K × V)) (t : HashMap K V) (hinv : Inv t)
    (hnd : (l.map Prod.fst).Nodup) (hnew : ∀ k ∈ l.map Prod.fst, ¬ holds t k) :
    counters (l.foldl (fun t item => (insert t item).1) t)
      = growStep^[l.length] (counters t) := by
  induction l generalizing t with
  | nil => rfl
  | cons a rest ih =>
    rw [List.map_cons, List.nodup_cons] at hnd
    have ha : ¬ holds t a.1 := hnew a.1 (by simp)
    rw [List.foldl_cons, List.length_cons, Function.iterate_succ_apply,
      ← insert_counters t a ha]
    refine ih _ (insert_inv t a hinv) hnd.2 ?_
    intro k hk
    rw [insert_holds t a hinv k]
    rintro (hc | hc)
    · exact hnew k (by rw [List.map_cons]; exact List.mem_cons_of_mem _ hk) hc
    · exact hnd.1 (hc ▸ hk)

theorem foldl_erase_counters (ks : List K) (t : HashMap K V) (hinv : Inv t)
    (hnd : ks.Nodup) (hall : ∀ k ∈ ks, holds t k) :
    counters (ks.foldl erase t) = shrinkStep^[ks.length] (counters t) := by
  induction ks generalizing t with
  | nil => rfl
  | cons a rest ih =>
    rw [List.nodup_cons] at hnd
    have ha : holds t a := hall a (List.mem_cons_self _ _)
    rw [List.foldl_cons, List.length_cons, Function.iterate_succ_apply,
      ← erase_counters t a hinv ha]
    refine ih _ (erase_inv t a hinv) hnd.2 ?_
    intro k hk
    refine erase_holds t a k hinv ?_ (hall k (List.mem_cons_of_mem _ hk))
    rintro rfl
    exact hnd.1 hk

theorem empty_not_holds (hash : K → Nat) (k : K) : ¬ holds (empty hash : HashMap K V) k := by
  rintro ⟨batch, hb, item, hi, _⟩
  have hb2 : batch = [] := by simpa [empty] using hb
  rw [hb2] at hi
  cases hi

theorem ofRange_counters (hash : K → Nat) (l : List (K × V)) (hnd : (l.map Prod.fst).Nodup) :
    counters (ofRange l hash) = growStep^[l.length] (1, 0) := by
  unfold ofRange
  exact foldl_insert_counters l (empty hash) (empty_inv hash) hnd
    (fun k _ => empty_not_holds hash k)

theorem ofRange_concat (hash : K → Nat) (l : List (K × V)) (item : K × V) :
    ofRange (l ++ [item]) hash = (insert (ofRange l hash) item).1 := by
  simp only [ofRange, List.foldl_append, List.foldl_cons, List.foldl_nil]

theorem batches_of_counters (t : HashMap K V) (b s : Nat) (h : counters t = (b, s)) :
    t.batches_ = b ∧ size t = s :=
  ⟨congrArg Prod.fst h, congrArg Prod.snd h⟩

/-! ## The load bound -/

theorem pow_two_halve (b e : Nat) (hb : b = 2 ^ e) (h5 : 5 < b) :
    ∃ e1, b / 2 = 2 ^ e1 ∧ 2 * (b / 2) = b ∧ 4 ≤ b / 2 := by
  match e with
  | 0 => simp at hb; omega
  | 1 => simp at hb; omega
  | 2 => simp at hb; omega
  | e + 3 =>
    have h8 : 1 ≤ 2 ^ e := Nat.one_le_two_pow
    refine ⟨e + 2, ?_, ?_, ?_⟩ <;> rw [hb] <;> simp only [pow_succ] <;> omega

theorem growStep_load (b s : Nat) (hl : s ≤ b + 1) (hb : ∃ e, b = 2 ^ e) :
    (growStep (b, s)).2 ≤ (growStep (b, s)).1 + 1 ∧ ∃ e, (growStep (b, s)).1 = 2 ^ e := by
  obtain ⟨e, he⟩ := hb
  have h1 : 1 ≤ b := by rw [he]; exact Nat.one_le_two_pow
  simp only [growStep]
  split
  · exact ⟨by omega, e + 1, by rw [he, pow_succ]⟩
  · exact ⟨by omega, e, he⟩

theorem insert_load (t : HashMap K V) (item : K × V) (hinv : Inv t) (hl : Load t) :
    Load (insert t item).1 := by
  by_cases hh : holds t item.1
  · rw [(insert_perm t item hinv).1 hh]
    exact hl
  · have hc := insert_counters t item hh
    have hg := growStep_load t.batches_ t.size_ hl.1 hl.2
    have h1 : (insert t item).1.batches_ = (growStep (counters t)).1 := by rw [← hc]; rfl
    have h2 : (insert t item).1.size_ = (growStep (counters t)).2 := by rw [← hc]; rfl
    unfold Load
    rw [h1, h2]
    exact hg

theorem erase_load (t : HashMap K V) (key : K) (hinv : Inv t) (hl : Load t) :
    Load (erase t key) := by
  obtain ⟨e, he⟩ := hl.2
  have hsz : (erase t key).size_ ≤ t.size_ := by
    by_cases hh : holds t key
    · obtain ⟨_, _, hs⟩ := (erase_spec t key hinv).2.2.2 hh
      omega
    · exact Nat.le_of_eq ((erase_spec t key hinv).2.2.1 hh).2
  unfold Load
  rw [erase_batches]
  split
  · next hc =>
    obtain ⟨e1, h1, h2, _⟩ := pow_two_halve t.batches_ e he hc.1
    exact ⟨by omega, e1, h1⟩
  · exact ⟨Nat.le_trans hsz hl.1, e, he⟩

/-- Every reachable table satisfies the load bound. -/
theorem Reachable.load [Inhabited V] {t : HashMap K V} (h : Reachable t) : Load t := by
  induction h with
  | empty hash => exact ⟨Nat.zero_le _, 0, rfl⟩
  | insert t item ht ih => exact insert_load t item ht.inv ih
  | erase t key ht ih => exact erase_load t key ht.inv ih
  | index t key ht ih => exact insert_load t (key, default) ht.inv ih
  | clear t _ _ => exact ⟨Nat.zero_le _, 0, rfl⟩
  | assign t other c _ ho hc _ iho =>
    obtain ⟨_, _, hs, hb, _⟩ := assign_spec t other c ho.inv hc
    unfold Load
    rw [hs, hb]
    exact iho

/-! ## Round trip, bucket-count bounds, growth and shrink scenarios -/

/-- C11 (as amended): on a table satisfying the table invariant (every reachable
table does), `insert((k, v))` followed by `find(k)` yields a handle other than
`end()`; it dereferences to `(k, v)` when `k` was absent before the insert, and to
`(k, v0)` when `k` was already stored with `v0`. -/
theorem insert_find_round_trip (t : HashMap K V) (k : K) (v : V) (h : Inv t) :
    find (insert t (k, v)).1 k ≠ end_ (insert t (k, v)).1 ∧
    (¬ holds t k →
      deref (insert t (k, v)).1.data_ (find (insert t (k, v)).1 k) = some (k, v)) ∧
    (∀ v0, stored t k v0 →
      deref (insert t (k, v)).1.data_ (find (insert t (k, v)).1 k) = some (k, v0)) := by
  have hinv := insert_inv t (k, v) h
  refine ⟨?_, ?_, ?_⟩
  · exact (find_ne_end_iff_holds _ k hinv).mpr
      ((insert_holds t (k, v) h k).mpr (Or.inr rfl))
  · intro hno
    exact deref_find_of_stored _ k v hinv
      ((insert_stored t (k, v) h k v).mpr (Or.inr ⟨hno, rfl⟩))
  · intro v0 hs
    exact deref_find_of_stored _ k v0 hinv
      ((insert_stored t (k, v) h k v0).mpr (Or.inl hs))

theorem insert_find_round_trip_witness :
    Inv sample ∧
    find (insert sample (4, 40)).1 4 ≠ end_ (insert sample (4, 40)).1 ∧
    (¬ holds sample 4 →
      deref (insert sample (4, 40)).1.data_ (find (insert sample (4, 40)).1 4)
        = some (4, 40)) ∧
    (∀ v0, stored sample 4 v0 →
      deref (insert sample (4, 40)).1.data_ (find (insert sample (4, 40)).1 4)
        = some (4, v0)) :=
  ⟨sample_reachable.inv, insert_find_round_trip sample 4 40 sample_reachable.inv⟩

/-- C11 fails as stated: `sample` stores `(2, 20)`; after `insert((2, 77))` the handle
`find(2)` dereferences to `(2, 20)`, not to `(2, 77)`. -/
theorem insert_find_round_trip_counterexample :
    Reachable sample ∧
    deref (insert sample (2, 77)).1.data_ (find (insert sample (2, 77)).1 2) = some (2, 20) ∧
    deref (insert sample (2, 77)).1.data_ (find (insert sample (2, 77)).1 2)
      ≠ some (2, 77) :=
  ⟨sample_reachable, by decide, by decide⟩

/-- C12 (as amended): in a reachable table `batches_ ≥ 1`; `insert` and `operator[]`
never lower `batches_`; `erase` never raises it and lowers it only by halving, taken
only when the old value exceeds `MIN_SIZE_TO_HALVE = 5` and twice `size_`, and the
halved value is at least 4; `clear` sets `batches_` to 1. -/
theorem batches_bounds [Inhabited V] (t : HashMap K V) (h : Reachable t) :
    1 ≤ t.batches_ ∧
    (∀ item, t.batches_ ≤ (insert t item).1.batches_) ∧
    (∀ k, t.batches_ ≤ (index t k).1.batches_) ∧
    (∀ k, (erase t k).batches_ ≤ t.batches_) ∧
    (∀ k, (erase t k).batches_ < t.batches_ →
      (erase t k).batches_ = t.batches_ / 2 ∧ MIN_SIZE_TO_HALVE < t.batches_ ∧
      2 * t.size_ < t.batches_ ∧ 4 ≤ (erase t k).batches_) ∧
    (clear t).batches_ = 1 := by
  obtain ⟨e, he⟩ := h.load.2
  refine ⟨h.inv.pos, insert_batches_le t, fun k => insert_batches_le t (k, default), ?_, ?_, rfl⟩
  · intro k
    rw [erase_batches]
    split
    · exact Nat.div_le_self _ _
    · exact Nat.le_refl _
  · intro k
    rw [erase_batches]
    split
    · next hc =>
      intro _
      obtain ⟨_, _, _, h4⟩ := pow_two_halve t.batches_ e he hc.1
      exact ⟨rfl, hc.1, hc.2, h4⟩
    · intro hlt
      exact absurd hlt (Nat.lt_irrefl _)

theorem batches_bounds_witness :
    Reachable sparse ∧
    1 ≤ sparse.batches_ ∧
    (∀ item, sparse.batches_ ≤ (insert sparse item).1.batches_) ∧
    (∀ k, sparse.batches_ ≤ (index sparse k).1.batches_) ∧
    (∀ k, (erase sparse k).batches_ ≤ sparse.batches_) ∧
    (∀ k, (erase sparse k).batches_ < sparse.batches_ →
      (erase sparse k).batches_ = sparse.batches_ / 2 ∧ MIN_SIZE_TO_HALVE < sparse.batches_ ∧
      2 * sparse.size_ < sparse.batches_ ∧ 4 ≤ (erase sparse k).batches_) ∧
    (clear sparse).batches_ = 1 :=
  ⟨sparse_reachable, batches_bounds sparse sparse_reachable⟩

/-- C12 fails as stated: `sparse` is reachable with 8 buckets and 3 entries;
`erase(3)` lowers `batches_` to 4, which is below 5, and `clear()` lowers it to 1,
which is not the old value halved. -/
theorem batches_bounds_counterexample :
    Reachable sparse ∧ sparse.batches_ = 8 ∧
    (erase sparse 3).batches_ < sparse.batches_ ∧ (erase sparse 3).batches_ < 5 ∧
    (clear sparse).batches_ < sparse.batches_ ∧
    (clear sparse).batches_ ≠ sparse.batches_ / 2 :=
  ⟨sparse_reachable, by decide, by decide, by decide, by decide, by decide⟩

/-- C13 (as amended): for every hash function and two distinct keys, after both are
inserted into the empty table `batches_` is still 1 with `size()` 2 (the growth check
of the 2nd insert sees `size_` 1); the doubling to 2 happens in the insert of a third
distinct key. -/
theorem growth_second_insert (hash : K → Nat) (k1 k2 : K) (v1 v2 : V) (hne : k1 ≠ k2) :
    (ofRange [(k1, v1), (k2, v2)] hash).batches_ = 1 ∧
    size (ofRange [(k1, v1), (k2, v2)] hash) = 2 ∧
    ∀ k3 v3, k3 ≠ k1 → k3 ≠ k2 →
      (insert (ofRange [(k1, v1), (k2, v2)] hash) (k3, v3)).1.batches_ = 2 := by
  have h2 := (ofRange_counters hash [(k1, v1), (k2, v2)] (by simpa using hne)).trans
    (show growStep^[2] (1, 0) = (1, 2) by decide)
  obtain ⟨hb, hs⟩ := batches_of_counters _ _ _ h2
  refine ⟨hb, hs, ?_⟩
  intro k3 v3 h31 h32
  have h3 := (ofRange_counters hash ([(k1, v1), (k2, v2)] ++ [(k3, v3)])
    (by simpa using ⟨⟨hne, Ne.symm h31⟩, Ne.symm h32⟩)).trans
    (show growStep^[3] (1, 0) = (2, 3) by decide)
  rw [ofRange_concat] at h3
  exact (batches_of_counters _ _ _ h3).1

theorem growth_second_insert_witness :
    (1 : Nat) ≠ 2 ∧
    (ofRange [(1, 10), (2, 20)] fun k : Nat => k).batches_ = 1 ∧
    size (ofRange [(1, 10), (2, 20)] fun k : Nat => k) = 2 ∧
    ∀ k3 v3, k3 ≠ 1 → k3 ≠ 2 →
      (insert (ofRange [(1, 10), (2, 20)] fun k : Nat => k) (k3, v3)).1.batches_ = 2 :=
  ⟨by decide, growth_second_insert (fun k : Nat => k) 1 2 10 20 (by decide)⟩

/-- C13 fails as stated: with the identity hash and the distinct keys 1 and 2, the
table after the 2nd insert has `size()` 2 and `batches_` 1, not at least 2. -/
theorem growth_second_insert_counterexample :
    size (ofRange [(1, 10), (2, 20)] fun k : Nat => k) = 2 ∧
    ¬ 2 ≤ (ofRange [(1, 10), (2, 20)] fun k : Nat => k).batches_ :=
  ⟨by decide, by decide⟩

/-- C14: for every hash function and every 10 entries with pairwise distinct keys,
the table after inserting them into the empty table has 16 buckets: a power of two
that is at least 10. -/
theorem growth_tenth_insert (hash : K → Nat) (l : List (K × V))
    (hnd : (l.map Prod.fst).Nodup) (hlen : l.length = 10) :
    size (ofRange l hash) = 10 ∧ (ofRange l hash).batches_ = 16 ∧
    (∃ e, (ofRange l hash).batches_ = 2 ^ e) ∧ 10 ≤ (ofRange l hash).batches_ := by
  have h := ofRange_counters hash l hnd
  rw [hlen] at h
  obtain ⟨hb, hs⟩ := batches_of_counters _ _ _
    (h.trans (show growStep^[10] (1, 0) = (16, 10) by decide))
  exact ⟨hs, hb, ⟨4, by rw [hb]; rfl⟩, by rw [hb]; decide⟩

theorem growth_tenth_insert_witness :
    ((List.map (fun i => (i, i)) (List.range 10)).map Prod.fst).Nodup ∧
    (List.map (fun i => (i, i)) (List.range 10)).length = 10 ∧
    size (ofRange (List.map (fun i => (i, i)) (List.range 10)) fun k : Nat => k) = 10 ∧
    (ofRange (List.map (fun i => (i, i)) (List.range 10)) fun k : Nat => k).batches_ = 16 ∧
    (∃ e, (ofRange (List.map (fun i => (i, i)) (List.range 10)) fun k : Nat => k).batches_
      = 2 ^ e) ∧
    10 ≤ (ofRange (List.map (fun i => (i, i)) (List.range 10)) fun k : Nat => k).batches_ :=
  ⟨by decide, by decide,
    growth_tenth_insert (fun k : Nat => k) (List.map (fun i => (i, i)) (List.range 10))
      (by decide) (by decide)⟩

/-- C20: in every reachable table `size_ ≤ batches_ + 1` and `batches_` is a power of
two; so whenever halving can be taken (`batches_ > 5`) it divides an even `batches_`
exactly. -/
theorem load_bound [Inhabited V] (t : HashMap K V) (h : Reachable t) :
    t.size_ ≤ t.batches_ + 1 ∧ (∃ e, t.batches_ = 2 ^ e) ∧
    (MIN_SIZE_TO_HALVE < t.batches_ → 2 * (t.batches_ / 2) = t.batches_) := by
  obtain ⟨hl, e, he⟩ := h.load
  refine ⟨hl, ⟨e, he⟩, fun h5 => ?_⟩
  obtain ⟨_, _, h2, _⟩ := pow_two_halve t.batches_ e he h5
  exact h2

theorem load_bound_witness :
    Reachable sparse ∧
    sparse.size_ ≤ sparse.batches_ + 1 ∧ (∃ e, sparse.batches_ = 2 ^ e) ∧
    (MIN_SIZE_TO_HALVE < sparse.batches_ → 2 * (sparse.batches_ / 2) = sparse.batches_) :=
  ⟨sparse_reachable, load_bound sparse sparse_reachable⟩

theorem take_succ_foldl_erase (ks : List K) (t : HashMap K V) (i : Nat) (hi : i < ks.length) :
    (ks.take (i + 1)).foldl erase t = erase ((ks.take i).foldl erase t) ks[i] := by
  rw [List.take_succ, List.foldl_append, List.getElem?_eq_getElem hi]
  rfl

/-- C15: for a table satisfying the invariant with 20 entries and 32 buckets, and any
order `ks` of 18 distinct stored keys: the counters before the `i`-th `erase` are the
`i`-th iterate of the shrink step on `(32, 20)`; that `erase` halves `batches_` exactly
when its counters before the call satisfy `batches_ > 5` and `batches_ > 2 * size_`
and otherwise leaves it; at the end there are 2 entries in 4 buckets, at most 5. -/
theorem shrink_scenario (t : HashMap K V) (ks : List K) (hinv : Inv t)
    (hs : t.size_ = 20) (hb : t.batches_ = 32) (hnd : ks.Nodup)
    (hall : ∀ k ∈ ks, holds t k) (hlen : ks.length = 18) :
    (∀ i, i < 18 →
      counters ((ks.take i).foldl erase t) = shrinkStep^[i] (32, 20) ∧
      ((ks.take (i + 1)).foldl erase t).batches_
        = if ((ks.take i).foldl erase t).batches_ > 5 ∧
              ((ks.take i).foldl erase t).batches_ > 2 * ((ks.take i).foldl erase t).size_
          then ((ks.take i).foldl erase t).batches_ / 2
          else ((ks.take i).foldl erase t).batches_) ∧
    size (ks.foldl erase t) = 2 ∧ (ks.foldl erase t).batches_ = 4 ∧
    (ks.foldl erase t).batches_ ≤ 5 := by
  have hc : counters t = (32, 20) := by rw [counters, hs, hb]
  have hfinal := foldl_erase_counters ks t hinv hnd hall
  rw [hc, hlen] at hfinal
  obtain ⟨h4, h2⟩ := batches_of_counters _ _ _
    (hfinal.trans (show shrinkStep^[18] (32, 20) = (4, 2) by decide))
  refine ⟨fun i hi => ⟨?_, ?_⟩, h2, h4, by rw [h4]; decide⟩
  · have h := foldl_erase_counters (ks.take i) t hinv
      ((List.take_sublist i ks).nodup hnd)
      (fun k hk => hall k (List.mem_of_mem_take hk))
    rw [hc, List.length_take, hlen, Nat.min_eq_left (Nat.le_of_lt hi)] at h
    exact h
  · rw [take_succ_foldl_erase ks t i (by rw [hlen]; exact hi), erase_batches]
    rfl

set_option maxRecDepth 1000000 in
theorem shrink_scenario_witness :
    Inv twenty ∧ twenty.size_ = 20 ∧ twenty.batches_ = 32 ∧ (List.range 18).Nodup ∧
    (∀ k ∈ List.range 18, holds twenty k) ∧ (List.range 18).length = 18 ∧
    (∀ i, i < 18 →
      counters (((List.range 18).take i).foldl erase twenty) = shrinkStep^[i] (32, 20) ∧
      (((List.range 18).take (i + 1)).foldl erase twenty).batches_
        = if (((List.range 18).take i).foldl erase twenty).batches_ > 5 ∧
              (((List.range 18).take i).foldl erase twenty).batches_
                > 2 * (((List.range 18).take i).foldl erase twenty).size_
          then (((List.range 18).take i).foldl erase twenty).batches_ / 2
          else (((List.range 18).take i).foldl erase twenty).batches_) ∧
    size ((List.range 18).foldl erase twenty) = 2 ∧
    ((List.range 18).foldl erase twenty).batches_ = 4 ∧
    ((List.range 18).foldl erase twenty).batches_ ≤ 5 :=
  ⟨ofRange_inv _ _ (empty_inv _), by decide, by decide, by decide, by decide, by decide,
    shrink_scenario twenty (List.range 18) (ofRange_inv _ _ (empty_inv _))
      (by decide) (by decide) (by decide) (by decide) (by decide)⟩

/-- C16: in every reachable table (1) every stored entry with key `k` lies in bucket
`hash(k) % batches_`, (2) `size()` is the number of entries over all buckets, (3) no
two stored entries have the same key; and `insert`, `erase`, `operator[]`, `clear` and
copy assignment take a table satisfying the invariant to one satisfying it. -/
theorem table_invariant [Inhabited V] (t : HashMap K V) (h : Reachable t) :
    (∀ k v, stored t k v → (k, v) ∈ bucket t.data_ (t.hash_ k % t.batches_)) ∧
    size t = (t.data_.map List.length).sum ∧
    (t.data_.flatten.map Prod.fst).Nodup ∧
    Inv t ∧
    ∀ u : HashMap K V, Inv u →
      (∀ item, Inv (insert u item).1) ∧ (∀ k, Inv (erase u k)) ∧
      (∀ k, Inv (index u k).1) ∧ Inv (clear u) ∧
      ∀ w c, assign w u = some c → Inv c := by
  have hinv := h.inv
  refine ⟨?_, ?_, hinv.nodup, hinv, ?_⟩
  · rintro k v ⟨batch, hb, hm⟩
    obtain ⟨i, _, rfl⟩ := (mem_iff_bucket t.data_ batch).mp hb
    rw [hinv.placed i (k, v) hm]
    exact hm
  · rw [size, hinv.count, List.length_flatten]
  · intro u hu
    exact ⟨fun item => insert_inv u item hu, fun k => erase_inv u k hu,
      fun k => insert_inv u (k, default) hu, empty_inv u.hash_,
      fun w c hc => (assign_spec w u c hu hc).1⟩

theorem table_invariant_witness :
    Reachable sample ∧
    (∀ k v, stored sample k v → (k, v) ∈ bucket sample.data_ (sample.hash_ k % sample.batches_)) ∧
    size sample = (sample.data_.map List.length).sum ∧
    (sample.data_.flatten.map Prod.fst).Nodup ∧
    Inv sample ∧
    ∀ u : HashMap Nat Nat, Inv u →
      (∀ item, Inv (insert u item).1) ∧ (∀ k, Inv (erase u k)) ∧
      (∀ k, Inv (index u k).1) ∧ Inv (clear u) ∧
      ∀ w c, assign w u = some c → Inv c :=
  ⟨sample_reachable, table_invariant sample sample_reachable⟩

/-! ## `erase` as a two-step computation, `rehash`, index safety -/

theorem eraseIdx_findPosition (key : K) (batch : List (K × V)) (p : Nat)
    (h : findPosition key batch = some p) :
    batch.eraseIdx p = batch.eraseP fun item => item.1 = key := by
  induction batch generalizing p with
  | nil => simp [findPosition] at h
  | cons a rest ih =>
    by_cases ha : a.1 = key
    · simp [findPosition, ha] at h
      subst h
      simp [List.eraseP_cons, ha]
    · simp [findPosition, ha] at h
      obtain ⟨q, hq, rfl⟩ := h
      simp [List.eraseP_cons, ha, ih q hq]

theorem halve_batches_eq (t : HashMap K V) :
    halve_batches_if_needed t
      = if 5 < t.batches_ ∧ 2 * t.size_ < t.batches_ then rehash t (t.batches_ / 2) else t :=
  rfl

/-- C17: for every table (a bucket array of `batches_ ≥ 1` buckets, `size_` counting
its entries) and every key, stored or not, `erase` equals the two-step computation
`erase_two_step`; in particular the resulting `batches_` is a function of the
`batches_` and `size_` before the call alone. -/
theorem erase_eq_two_step (t : HashMap K V) (key : K) (hlen : t.data_.length = t.batches_)
    (hpos : 0 < t.batches_) (hcount : t.size_ = t.data_.flatten.length) :
    erase t key = erase_two_step t key ∧
    (erase t key).batches_
      = (if 5 < t.batches_ ∧ 2 * t.size_ < t.batches_ then t.batches_ / 2 else t.batches_) ∧
    (∀ i, i ≠ (erase t key).hash_ key % (erase t key).batches_ →
      bucket (erase t key).data_ i = bucket (halve_batches_if_needed t).data_ i) ∧
    (bucket (erase t key).data_ ((erase t key).hash_ key % (erase t key).batches_)).Sublist
      (bucket (halve_batches_if_needed t).data_
        ((erase t key).hash_ key % (erase t key).batches_)) := by
  have hb : (erase t key).batches_ = (halve_batches_if_needed t).batches_ := by
    rw [erase_batches, halve_batches_batches]
  have hlen1 : (halve_batches_if_needed t).data_.length
      = (halve_batches_if_needed t).batches_ := by
    unfold halve_batches_if_needed
    split
    · exact rehash_length t _
    · exact hlen
  have hpos1 : 0 < (halve_batches_if_needed t).batches_ := by
    rw [halve_batches_batches]
    split
    · next hc => simp only [MIN_SIZE_TO_HALVE] at hc; omega
    · exact hpos
  have hlt : (halve_batches_if_needed t).hash_ key % (halve_batches_if_needed t).batches_
      < (halve_batches_if_needed t).data_.length := by
    rw [hlen1]; exact Nat.mod_lt _ hpos1
  have hcount1 : (halve_batches_if_needed t).size_
      = (halve_batches_if_needed t).data_.flatten.length := by
    rw [halve_batches_size, hcount, (halve_batches_perm t).length_eq]
  cases hf : findPosition key (bucket (halve_batches_if_needed t).data_
      ((halve_batches_if_needed t).hash_ key % (halve_batches_if_needed t).batches_)) with
  | none =>
    have hnone := (findPosition_eq_none_iff key _).mp hf
    have he := erase_of_none t key hf
    refine ⟨?_, erase_batches t key, fun i _ => by rw [he], by rw [he]⟩
    rw [he, erase_two_step, ← halve_batches_eq]
    rw [if_neg]
    rintro ⟨item, hi, hk⟩
    exact hnone item hi hk
  | some p =>
    have he := erase_of_some t key p hf
    obtain ⟨item, hitem, hk⟩ := findPosition_eq_some key _ p hf
    have hmem := List.getElem?_mem hitem
    have hs0 : (halve_batches_if_needed t).size_ ≠ 0 := by
      rw [hcount1]
      have : item ∈ (halve_batches_if_needed t).data_.flatten :=
        List.mem_flatten.mpr ⟨_, bucket_mem _ _ hlt, hmem⟩
      exact Nat.ne_of_gt (List.length_pos_of_mem this)
    refine ⟨?_, erase_batches t key, ?_, ?_⟩
    · rw [he, erase_two_step, ← halve_batches_eq]
      rw [if_pos ⟨item, hmem, hk⟩, removed, if_neg hs0, eraseIdx_findPosition key _ p hf]
    · intro i hi
      rw [he] at hi ⊢
      exact bucket_set_ne _ _ _ _ hi
    · rw [he]
      show List.Sublist (bucket (List.set _ _ _)
        ((halve_batches_if_needed t).hash_ key % (halve_batches_if_needed t).batches_)) _
      rw [bucket_set_self _ _ _ hlt]
      exact List.eraseIdx_sublist _ _

theorem erase_eq_two_step_witness :
    sparse.data_.length = sparse.batches_ ∧ 0 < sparse.batches_ ∧
    sparse.size_ = sparse.data_.flatten.length ∧
    erase sparse 9 = erase_two_step sparse 9 ∧
    (erase sparse 9).batches_
      = (if 5 < sparse.batches_ ∧ 2 * sparse.size_ < sparse.batches_ then sparse.batches_ / 2
        else sparse.batches_) ∧
    (∀ i, i ≠ (erase sparse 9).hash_ 9 % (erase sparse 9).batches_ →
      bucket (erase sparse 9).data_ i = bucket (halve_batches_if_needed sparse).data_ i) ∧
    (bucket (erase sparse 9).data_ ((erase sparse 9).hash_ 9 % (erase sparse 9).batches_)).Sublist
      (bucket (halve_batches_if_needed sparse).data_
        ((erase sparse 9).hash_ 9 % (erase sparse 9).batches_)) :=
  ⟨by decide, by decide, by decide,
    erase_eq_two_step sparse 9 (by decide) (by decide) (by decide)⟩

/-- C18: for every table and every `n ≥ 1`, `rehash(n)` yields a bucket array of
exactly `n` buckets with `batches_ = n`, the same `size_`, the same entries up to order,
and every entry in bucket `hash(key) % n`; for a table satisfying the invariant `find`
then reports the same presence and the same entry for every key, and full iteration
yields the same pairs up to order. -/
theorem rehash_contract (t : HashMap K V) (n : Nat) (hn : 1 ≤ n) :
    (rehash t n).data_.length = n ∧ (rehash t n).batches_ = n ∧
    (rehash t n).size_ = t.size_ ∧ (rehash t n).hash_ = t.hash_ ∧
    (rehash t n).data_.flatten.Perm t.data_.flatten ∧
    (∀ i item, item ∈ bucket (rehash t n).data_ i → t.hash_ item.1 % n = i) ∧
    (Inv t →
      (∀ k, (find (rehash t n) k ≠ end_ (rehash t n) ↔ find t k ≠ end_ t) ∧
        deref (rehash t n).data_ (find (rehash t n) k) = deref t.data_ (find t k)) ∧
      ∃ l1 l2, items t = some l1 ∧ items (rehash t n) = some l2 ∧ l2.Perm l1) := by
  have hperm := rehash_perm t n hn
  refine ⟨rehash_length t n, rfl, rfl, rfl, hperm, rehash_placed t n hn, ?_⟩
  intro hinv
  have hinv2 := rehash_inv t n hn hinv
  have hholds : ∀ k, holds (rehash t n) k ↔ holds t k := by
    intro k
    rw [holds_iff_mem_keys, holds_iff_mem_keys]
    exact (hperm.map Prod.fst).mem_iff
  refine ⟨fun k => ⟨?_, ?_⟩, _, _, items_eq t hinv.length_eq,
    items_eq _ hinv2.length_eq, hperm⟩
  · rw [find_ne_end_iff_holds _ k hinv2, find_ne_end_iff_holds t k hinv, hholds]
  · by_cases hh : holds t k
    · obtain ⟨v, hs, hd⟩ := deref_find t k hinv hh
      rw [hd, deref_find_of_stored _ k v hinv2 ((rehash_stored t n hn k v).mpr hs)]
    · rw [find_eq_end_of_not_holds t k hh,
        find_eq_end_of_not_holds _ k (fun hc => hh ((hholds k).mp hc))]
      simp only [deref, end_]
      rw [bucket_of_le _ _ (Nat.le_of_eq hinv.length_eq),
        bucket_of_le _ _ (Nat.le_of_eq hinv2.length_eq)]

theorem rehash_contract_witness :
    1 ≤ 5 ∧
    (rehash sample 5).data_.length = 5 ∧ (rehash sample 5).batches_ = 5 ∧
    (rehash sample 5).size_ = sample.size_ ∧ (rehash sample 5).hash_ = sample.hash_ ∧
    (rehash sample 5).data_.flatten.Perm sample.data_.flatten ∧
    (∀ i item, item ∈ bucket (rehash sample 5).data_ i → sample.hash_ item.1 % 5 = i) ∧
    (Inv sample →
      (∀ k, (find (rehash sample 5) k ≠ end_ (rehash sample 5) ↔ find sample k ≠ end_ sample) ∧
        deref (rehash sample 5).data_ (find (rehash sample 5) k)
          = deref sample.data_ (find sample k)) ∧
      ∃ l1 l2, items sample = some l1 ∧ items (rehash sample 5) = some l2 ∧ l2.Perm l1) :=
  ⟨by decide, rehash_contract sample 5 (by decide)⟩

/-- C19: in every reachable table the bucket array has `batches_ ≥ 1` buckets, so the
modulus of `getHash` is never zero and every bucket index used is below the length of
the array it indexes: in `find`, in `insert` and `erase` (after the growth or shrink
check), in the loop of `begin`, and in the two `rehash` calls (whose new bucket count
is at least 1); the handle `insert` returns for a new key has the position `length - 1`
of a non-empty bucket; and `erase` evaluates `batch.size() - 1` only on a non-empty
bucket. -/
theorem index_safety [Inhabited V] (t : HashMap K V) (h : Reachable t) :
    t.data_.length = t.batches_ ∧ 1 ≤ t.batches_ ∧
    (∀ k, getHash t k 0 < t.data_.length) ∧
    (∀ k, 1 ≤ (double_batches_if_needed t).batches_ ∧
      getHash (double_batches_if_needed t) k 0 < (double_batches_if_needed t).data_.length) ∧
    (∀ k, 1 ≤ (halve_batches_if_needed t).batches_ ∧
      getHash (halve_batches_if_needed t) k 0 < (halve_batches_if_needed t).data_.length) ∧
    (∀ i, i < t.batches_ → i < t.data_.length) ∧
    (t.batches_ < t.size_ → 1 ≤ t.batches_ * 2 ∧
      ∀ k, getHash t k (t.batches_ * 2) < (List.replicate (t.batches_ * 2) ([] : List (K × V))).length) ∧
    (t.batches_ > MIN_SIZE_TO_HALVE ∧ t.batches_ > 2 * t.size_ → 1 ≤ t.batches_ / 2 ∧
      ∀ k, getHash t k (t.batches_ / 2) < (List.replicate (t.batches_ / 2) ([] : List (K × V))).length) ∧
    (∀ item, ¬ holds t item.1 →
      1 ≤ (bucket (insert t item).1.data_ (insert t item).2.index_).length ∧
      (insert t item).2.position_ + 1
        = (bucket (insert t item).1.data_ (insert t item).2.index_).length) ∧
    (∀ k p, findPosition k (bucket (halve_batches_if_needed t).data_
        (getHash (halve_batches_if_needed t) k 0)) = some p →
      1 ≤ (bucket (halve_batches_if_needed t).data_
        (getHash (halve_batches_if_needed t) k 0)).length) := by
  have hinv := h.inv
  have hd := double_batches_inv t hinv
  have hh := halve_batches_inv t hinv
  have hidx : ∀ u : HashMap K V, Inv u → ∀ k, getHash u k 0 < u.data_.length := by
    intro u hu k
    rw [getHash_zero, hu.length_eq]
    exact Nat.mod_lt _ hu.pos
  refine ⟨hinv.length_eq, hinv.pos, hidx t hinv, fun k => ⟨hd.pos, hidx _ hd k⟩,
    fun k => ⟨hh.pos, hidx _ hh k⟩, fun i hi => by rw [hinv.length_eq]; exact hi,
    ?_, ?_, ?_, ?_⟩
  · intro _
    have hp : 0 < t.batches_ * 2 := Nat.mul_pos hinv.pos (by decide)
    refine ⟨hp, fun k => ?_⟩
    rw [List.length_replicate, getHash_pos t k _ hp]
    exact Nat.mod_lt _ hp
  · intro hc
    have hp : 0 < t.batches_ / 2 := by
      simp only [MIN_SIZE_TO_HALVE] at hc; omega
    refine ⟨hp, fun k => ?_⟩
    rw [List.length_replicate, getHash_pos t k _ hp]
    exact Nat.mod_lt _ hp
  · intro item hno
    rw [insert_of_find_eq_end t item (find_eq_end_of_not_holds t _ hno)]
    have hb := (deref_appended (double_batches_if_needed t) item hd.length_eq hd.pos).1
    simp only [hb, List.length_append, List.length_singleton]
    omega
  · intro k p hp
    obtain ⟨item, hi, _⟩ := findPosition_eq_some k _ p hp
    exact List.length_pos_of_mem (List.getElem?_mem hi)

theorem index_safety_witness :
    Reachable sample ∧
    sample.data_.length = sample.batches_ ∧ 1 ≤ sample.batches_ ∧
    (∀ k, getHash sample k 0 < sample.data_.length) ∧
    (∀ k, 1 ≤ (double_batches_if_needed sample).batches_ ∧
      getHash (double_batches_if_needed sample) k 0
        < (double_batches_if_needed sample).data_.length) ∧
    (∀ k, 1 ≤ (halve_batches_if_needed sample).batches_ ∧
      getHash (halve_batches_if_needed sample) k 0
        < (halve_batches_if_needed sample).data_.length) ∧
    (∀ i, i < sample.batches_ → i < sample.data_.length) ∧
    (sample.batches_ < sample.size_ → 1 ≤ sample.batches_ * 2 ∧
      ∀ k, getHash sample k (sample.batches_ * 2)
        < (List.replicate (sample.batches_ * 2) ([] : List (Nat × Nat))).length) ∧
    (sample.batches_ > MIN_SIZE_TO_HALVE ∧ sample.batches_ > 2 * sample.size_ →
      1 ≤ sample.batches_ / 2 ∧
      ∀ k, getHash sample k (sample.batches_ / 2)
        < (List.replicate (sample.batches_ / 2) ([] : List (Nat × Nat))).length) ∧
    (∀ item, ¬ holds sample item.1 →
      1 ≤ (bucket (insert sample item).1.data_ (insert sample item).2.index_).length ∧
      (insert sample item).2.position_ + 1
        = (bucket (insert sample item).1.data_ (insert sample item).2.index_).length) ∧
    (∀ k p, findPosition k (bucket (halve_batches_if_needed sample).data_
        (getHash (halve_batches_if_needed sample) k 0)) = some p →
      1 ≤ (bucket (halve_batches_if_needed sample).data_
        (getHash (halve_batches_if_needed sample) k 0)).length) :=
  ⟨sample_reachable, index_safety sample sample_reachable⟩

end Proofs

end HashMap
